import Mathlib

/-!
Shallow embedding of the `callocators` repository (src/page.c, src/arena.c).

The page allocator's state (struct palloc_state) owns three intrusive doubly
linked lists: the internal metadata pages (`__head`), the free runs
(`free_head`) and the used runs (`used_head`).  The intrusive list nodes live
inside `palloc_page_head` slots, which themselves live in the slot arrays of
internal pages.  We model:

  * an internal page (struct __internal_page plus its trailing
    `palloc_page_head` array) as a record holding its base address, its
    logical capacity (the stored capacity word with the most significant bit
    masked off), the second-chance flag (that most significant bit), its
    `page_heads_num` counter and the slot array;
  * a `palloc_page_head` slot as an optional address (`NULL` is `none`)
    plus a page count;
  * the two run lists as lists of slot identifiers (page base, slot index),
    ordered newest first (`dlist_add` inserts at the head, `list_for_each`
    walks from the head);
  * byte memory as an association list of explicitly written bytes; the code
    under verification never writes to run contents (there is no memset on
    either the retain path of pfree or the reuse path of find_free_pages),
    so only the user's own writes appear here.  Freshly mapped pages are
    zeroed by the OS contract; the model hands out fresh, never-before-used
    addresses for `mmap`, so their bytes read zero.

Machine-level aspects that the model fixes once and for all: the OS page
size is 4096 bytes; `sizeof(struct __internal_page) = 32` and
`sizeof(struct palloc_page_head) = 32` on an LP64 target, which gives the
dynamic internal pages the capacity (4096 - 32) / 32 = 127 that the source
computes; `sizeof(struct arena) = 40` and `sizeof(struct arena_page) = 24`.
The statically reserved internal block is a global object of the program
image; we place it at the (deliberately not page aligned) address 100,
below every address `mmap` can return, and start the fresh-map counter at
4096.  Undefined behaviour of the C source (dereferencing the NULL result
of `find_free_page_head` in the split path, reading a descriptor that sits
on an internal page that was just unmapped, or re-linking an internal page
whose base address is already linked) is modelled as an aborting step
(`none`).
-/

namespace Callocators

/-- OS page size in bytes, the value `page_size()` caches (4096 on the
modelled target). -/
def page_size : Nat := 4096

/-- STATIC_PAGE_HEAD_NUM from src/page.c. -/
def STATIC_PAGE_HEAD_NUM : Nat := 32

/-- MAX_PAGES_FREE_LIST from src/page.c: the free-list cap. -/
def MAX_PAGES_FREE_LIST : Nat := 16

/-- sizeof(struct __internal_page): two size_t words plus a dlink (two
pointers) on LP64. -/
def sizeof_internal_page : Nat := 32

/-- sizeof(struct palloc_page_head): a dlink (two pointers), a void
pointer and a size_t on LP64. -/
def sizeof_page_head : Nat := 32

/-- Capacity of a dynamically created internal page:
`(page_size() - sizeof(struct __internal_page)) / sizeof(struct palloc_page_head)`. -/
def dynamic_cap : Nat := (page_size - sizeof_internal_page) / sizeof_page_head

/-- Model address of the statically reserved internal block
`__static_internal_page`.  It is a global of the program image: not page
aligned and below every address the fresh-map counter can produce. -/
def static_base : Nat := 100

/-- One `struct palloc_page_head` slot: the run base address (`none` is the
`NULL` sentinel marking the slot unoccupied) and the run's page count. -/
structure PageHead where
  addr : Option Nat
  page_num : Nat
deriving DecidableEq, Repr

/-- One `struct __internal_page` together with its trailing slot array.
`cap` is the stored capacity word with its most significant bit masked off
(`__internal_page_get_cap`); `second_chance` is that most significant bit. -/
structure InternalPage where
  base : Nat
  cap : Nat
  second_chance : Bool
  page_heads_num : Nat
  slots : List PageHead
deriving DecidableEq, Repr

/-- Identifier of a `palloc_page_head` slot: the base address of the
internal page holding it and its index in that page's slot array. -/
structure DescId where
  pageBase : Nat
  idx : Nat
deriving DecidableEq, Repr

/-- The whole `struct palloc_state` plus the ambient machine: internal page
list (in `__head` order, newest first), free and used run lists (as lists
of slot identifiers, newest first), the `free_page_num` counter, the next
address `mmap` will return, the explicitly written bytes of memory, and the
log of every `__unmap_pages(addr, len)` call issued so far (`none` records
a call whose address argument was `NULL`). -/
structure PState where
  ipages : List InternalPage
  free_list : List DescId
  used_list : List DescId
  free_page_num : Nat
  nextMap : Nat
  mem : List (Nat × Nat)
  unmaps : List (Option Nat × Nat)
deriving DecidableEq, Repr

/-- The pristine statically reserved internal block: capacity 32, counter 0,
all 32 slots zeroed (`.heads = { 0 }` in the initializer). -/
def staticInternalPage : InternalPage :=
  { base := static_base, cap := STATIC_PAGE_HEAD_NUM, second_chance := false,
    page_heads_num := 0, slots := List.replicate STATIC_PAGE_HEAD_NUM ⟨none, 0⟩ }

/-- Initial allocator state: all three lists empty, `free_page_num = 0`.
The fresh-map counter starts at one page. -/
def initState : PState :=
  { ipages := [], free_list := [], used_list := [], free_page_num := 0,
    nextMap := page_size, mem := [], unmaps := [] }

/-- Look up the internal page with the given base address (first match in
list order). -/
def getPage (s : PState) (b : Nat) : Option InternalPage :=
  s.ipages.find? (fun P => P.base == b)

/-- Apply an update to every internal page with the given base address.
In the C source there is exactly one struct at a given address. -/
def setPage (s : PState) (b : Nat) (f : InternalPage → InternalPage) : PState :=
  { s with ipages := s.ipages.map (fun P => if P.base = b then f P else P) }

/-- Read the slot a descriptor identifier points at. -/
def getSlot (s : PState) (d : DescId) : Option PageHead :=
  (getPage s d.pageBase).bind (fun P => P.slots[d.idx]?)

/-- The slot's stored fields, defaulting to a zeroed head when the slot does
not exist (only reachable through undefined behaviour of the source). -/
def slotD (s : PState) (d : DescId) : PageHead :=
  (getSlot s d).getD ⟨none, 0⟩

/-- Overwrite the slot a descriptor identifier points at. -/
def setSlot (s : PState) (d : DescId) (h : PageHead) : PState :=
  setPage s d.pageBase (fun P => { P with slots := P.slots.set d.idx h })

/-- Number of occupied slots (`addr != NULL`) of an internal page. -/
def occ (P : InternalPage) : Nat :=
  (P.slots.filter (fun h => h.addr.isSome)).length

/-- Read one byte of memory: the most recent explicit write to that
address, or zero (fresh anonymous mappings read zero). -/
def memRead (s : PState) (a : Nat) : Nat :=
  ((s.mem.find? (fun p => p.1 == a)).map (fun p => p.2)).getD 0

/-- A store by the user to a byte of memory it owns. -/
def memWrite (s : PState) (a v : Nat) : PState :=
  { s with mem := (a, v) :: s.mem }

/-- Index of the first unoccupied slot (`addr == NULL`) of a slot array,
the inner loop of find_free_page_head. -/
def firstFreeSlot : List PageHead → Option Nat
  | [] => none
  | h :: rest => if h.addr = none then some 0 else (firstFreeSlot rest).map (fun i => i + 1)

/-- Outer loop of find_free_page_head over the internal page list: the
first page with an unoccupied slot among its first `cap` slots wins. -/
def ffph_aux : List InternalPage → Option DescId
  | [] => none
  | P :: rest =>
    match firstFreeSlot (P.slots.take P.cap) with
    | some i => some ⟨P.base, i⟩
    | none => ffph_aux rest

/-- find_free_page_head (src/page.c:284-302): walk the internal pages in
list order; in the first page that still has an unoccupied slot
(`addr == NULL`) among its first `cap` slots, pick the first such slot and
increment that page's `page_heads_num`.  The slot itself is left untouched
(the caller writes it later).  Returns `none` when every slot of every
internal page is occupied. -/
def find_free_page_head (s : PState) : Option DescId × PState :=
  match ffph_aux s.ipages with
  | none => (none, s)
  | some d =>
    (some d,
     setPage s d.pageBase (fun Q => { Q with page_heads_num := Q.page_heads_num + 1 }))

/-- find_page_head_container (src/page.c:304-321): locate the internal page
whose slot array contains the descriptor.  The source's address-range test
`start < item && item < end` (with `end` computed from the masked capacity)
holds exactly when the identifier's page is linked and the slot index lies
below that page's logical capacity.  The source kills the process when the
scan fails; the model returns `none` there. -/
def find_page_head_container (s : PState) (d : DescId) : Option InternalPage :=
  match getPage s d.pageBase with
  | none => none
  | some P => if d.idx < P.cap then some P else none

/-- Recursion of find_internal_page_to_free over the internal page list:
a page with `page_heads_num == 0` whose second-chance bit is already set is
selected (the walk stops, later pages untouched); an empty page whose bit
is clear gets the bit set (`__give_second_chance`) and the walk continues;
non-empty pages are skipped untouched. -/
def find_internal_page_to_free_aux : List InternalPage → Option Nat × List InternalPage
  | [] => (none, [])
  | P :: rest =>
    if P.page_heads_num = 0 then
      if P.second_chance then (some P.base, P :: rest)
      else
        let r := find_internal_page_to_free_aux rest
        (r.1, { P with second_chance := true } :: r.2)
    else
      let r := find_internal_page_to_free_aux rest
      (r.1, P :: r.2)

/-- find_internal_page_to_free (src/page.c:323-335): the second-chance
sweep over the internal page list.  Returns the base of the page to unmap
(when an empty, already-marked page exists) and the state with the flags
updated along the walk. -/
def find_internal_page_to_free (s : PState) : Option Nat × PState :=
  let r := find_internal_page_to_free_aux s.ipages
  (r.1, { s with ipages := r.2 })

/-- find_free_pages (src/page.c:246-282): walk the free list in order for
the first run with `page_num >= pnum`.  No fit: `__map_pages` returns a
fresh zeroed region (modelled by the monotone `nextMap` counter, so it is
disjoint from everything ever handed out).  Exact fit: the descriptor moves
from the free list to the used list and `free_page_num` drops by its page
count.  Oversized: the leftover `(page_num - pnum)` pages at
`addr + page_size * pnum` are written to an extra head — the caller's
stack-local head when `extraLocal` is true (returned as the middle
component), otherwise a slot obtained from `find_free_page_head` (whose
NULL result the source would dereference: modelled as `none`) — the found
descriptor is narrowed to `pnum` pages and moved to the used list, and
`free_page_num` drops by `pnum`.  Note the source never links the leftover
head into the free list. -/
def find_free_pages (s : PState) (pnum : Nat) (extraLocal : Bool) :
    Option (Nat × Option PageHead × PState) :=
  match s.free_list.find? (fun d => pnum ≤ (slotD s d).page_num) with
  | none =>
    some (s.nextMap, none, { s with nextMap := s.nextMap + pnum * page_size })
  | some d =>
    let h := slotD s d
    let a := h.addr.getD 0
    if h.page_num = pnum then
      some (a, none,
        { s with free_list := s.free_list.erase d,
                 used_list := d :: s.used_list,
                 free_page_num := s.free_page_num - h.page_num })
    else
      let leftover : PageHead := ⟨some (a + page_size * pnum), h.page_num - pnum⟩
      if extraLocal then
        let s1 := setSlot s d ⟨h.addr, pnum⟩
        some (a, some leftover,
          { s1 with free_list := s1.free_list.erase d,
                    used_list := d :: s1.used_list,
                    free_page_num := s1.free_page_num - pnum })
      else
        match find_free_page_head s with
        | (none, _) => none
        | (some e, s1) =>
          let s2 := setSlot s1 e leftover
          let s3 := setSlot s2 d ⟨h.addr, pnum⟩
          some (a, none,
            { s3 with free_list := s3.free_list.erase d,
                      used_list := d :: s3.used_list,
                      free_page_num := s3.free_page_num - pnum })

/-- palloc (src/page.c:154-198).  A zero page count fails with EINVAL
(modelled as a `none` result with the state unchanged) before the lock is
taken.  Otherwise: on the very first call the static internal block is
linked; a free descriptor slot is taken from the internal pages, or — when
none exists — a fresh one-page internal page is created, backed by
`find_free_pages(1, &extra)` with a stack-local extra head that is copied
into slot 0 of the new page if the backing run was split.  The slot array
of a newly created internal page reads zero in the model (the source
relies on the backing page being zeroed, which holds when it comes fresh
from the OS).  Re-linking an internal page whose base address is already
linked would corrupt the intrusive list; the model aborts there.  Finally
the chosen slot's page is marked recently used and its counter bumped
again, the run for the caller is obtained by `find_free_pages(pnum, NULL)`,
and the slot is filled and pushed on the used list. -/
def palloc (s0 : PState) (pnum : Nat) : Option (Option Nat × PState) :=
  if pnum = 0 then some (none, s0)
  else
    let s := if s0.ipages.isEmpty then { s0 with ipages := [staticInternalPage] } else s0
    match find_free_page_head s with
    | (some fh, s1) =>
      match find_page_head_container s1 fh with
      | none => none
      | some container =>
        let s2 := setPage s1 container.base
          (fun P => { P with second_chance := false, page_heads_num := P.page_heads_num + 1 })
        match find_free_pages s2 pnum false with
        | none => none
        | some (a, _, s3) =>
          let s4 := { s3 with used_list := fh :: s3.used_list }
          some (some a, setSlot s4 fh ⟨some a, pnum⟩)
    | (none, _) =>
      match find_free_pages s 1 true with
      | none => none
      | some (pbase, extraVal, s2) =>
        if s2.ipages.any (fun P => P.base = pbase) then none
        else
          let newPage : InternalPage :=
            { base := pbase, cap := dynamic_cap, second_chance := false,
              page_heads_num := 0, slots := List.replicate dynamic_cap ⟨none, 0⟩ }
          let s3 := { s2 with ipages := newPage :: s2.ipages }
          let fhs4 : DescId × PState :=
            match extraVal with
            | some ex =>
              (⟨pbase, 1⟩,
               setPage (setSlot s3 ⟨pbase, 0⟩ ex) pbase
                 (fun P => { P with page_heads_num := P.page_heads_num + 1 }))
            | none => (⟨pbase, 0⟩, s3)
          let fh := fhs4.1
          let s5 := setPage fhs4.2 pbase
            (fun P => { P with second_chance := false, page_heads_num := P.page_heads_num + 1 })
          match find_free_pages s5 pnum false with
          | none => none
          | some (a, _, s6) =>
            let s7 := { s6 with used_list := fh :: s6.used_list }
            some (some a, setSlot s7 fh ⟨some a, pnum⟩)

/-- pfree (src/page.c:200-243).  The argument is rounded down to a page
boundary; the used list is scanned for a descriptor with that address
(first match in list order); no match is a silent no-op.  The descriptor is
unlinked from the used list.  If `free_page_num <= MAX_PAGES_FREE_LIST` the
run is retained: the counter grows by the run's page count and the
descriptor joins the free list — nothing is zeroed.  Otherwise the
containing internal page is located (dying, i.e. `none`, on failure) and
the second-chance sweep runs: if it yields a page, that page is unlinked
and unmapped followed by the run (reading the descriptor after its own
internal page was unmapped is undefined behaviour, modelled as `none`);
otherwise the slot's `addr` is nulled and the container's counter
decremented *before* `__unmap_pages(entry->addr, ...)` is issued, so the
logged unmap carries a NULL address. -/
def pfree (s : PState) (a : Nat) : Option PState :=
  let pages := a / page_size * page_size
  match s.used_list.find? (fun d => (slotD s d).addr == some pages) with
  | none => some s
  | some d =>
    let s1 := { s with used_list := s.used_list.erase d }
    if s1.free_page_num ≤ MAX_PAGES_FREE_LIST then
      some { s1 with free_page_num := s1.free_page_num + (slotD s1 d).page_num,
                     free_list := d :: s1.free_list }
    else
      match find_page_head_container s1 d with
      | none => none
      | some container =>
        let r := find_internal_page_to_free s1
        match r.1 with
        | some ctfBase =>
          if d.pageBase = ctfBase then none
          else
            let s2 := { r.2 with ipages := r.2.ipages.filter (fun P => P.base ≠ ctfBase) }
            some { s2 with unmaps := s2.unmaps ++
                     [(some ctfBase, page_size),
                      ((slotD s2 d).addr, (slotD s2 d).page_num * page_size)] }
        | none =>
          let s2 := setSlot r.2 d ⟨none, (slotD r.2 d).page_num⟩
          let s3 := setPage s2 container.base
            (fun P => { P with page_heads_num := P.page_heads_num - 1 })
          some { s3 with unmaps := s3.unmaps ++
                   [((slotD s3 d).addr, (slotD s3 d).page_num * page_size)] }

/-- sizeof(struct arena): an arena_page (24 bytes), an slink (one pointer)
and a size_t on LP64. -/
def sizeof_arena : Nat := 40

/-- sizeof(struct arena_page): two uintptr_t words and an slink (one
pointer) on LP64. -/
def sizeof_arena_page : Nat := 24

/-- Word size bound for the source's size_t arithmetic. -/
def usize_mod : Nat := 2 ^ 64

/-- One arena chunk (struct arena_page): base address of its run, bump
cursor `idx` and one-past-the-end address `end` (here `endp`). -/
structure Chunk where
  base : Nat
  idx : Nat
  endp : Nat
deriving DecidableEq, Repr

/-- One arena (struct arena): its chunk list in slink order — `slist_add`
pushes at the head, so the head is the most recently added chunk and the
chunk hosting the arena structure is the last element — plus the
`bytes_growth` policy value. -/
structure ArenaSt where
  chunks : List Chunk
  growth : Nat
deriving DecidableEq, Repr

/-- bytes_to_page (src/arena.c:84-91): `ceil(bytes / page_size)`. -/
def bytes_to_page (bytes ps : Nat) : Nat :=
  bytes / ps + (if bytes % ps ≠ 0 then 1 else 0)

/-- arena_page_init (src/arena.c:68-75) composed with the caller's chunk
placement: the chunk's cursor starts `struct_size` bytes past the run base
and its end is `page_bytes` past the base. -/
def arena_page_init (base struct_size page_bytes : Nat) : Chunk :=
  { base := base, idx := base + struct_size, endp := base + page_bytes }

/-- arena_create_ext (src/arena.c:20-32): round `initial_bytes` up to whole
pages, obtain the run from palloc (null propagates), place the arena
structure at its start and initialise the first chunk with
`struct_size = sizeof(struct arena)`. -/
def arena_create_ext (s : PState) (initial_bytes bytes_growth : Nat) :
    Option (Option ArenaSt × PState) :=
  let num_pages := bytes_to_page initial_bytes page_size
  match palloc s num_pages with
  | none => none
  | some (none, s') => some (none, s')
  | some (some a, s') =>
    some (some { chunks := [arena_page_init a sizeof_arena (num_pages * page_size)],
                 growth := bytes_growth }, s')

/-- arena_create (src/arena.c:15-18): both tunables default to one page. -/
def arena_create (s : PState) : Option (Option ArenaSt × PState) :=
  arena_create_ext s page_size page_size

/-- alloc_in_page (src/arena.c:77-82): hand out the cursor and bump it by
`bytes`. -/
def alloc_in_page (c : Chunk) (bytes : Nat) : Nat × Chunk :=
  (c.idx, { c with idx := c.idx + bytes })

/-- arena_alloc (src/arena.c:34-52).  The current chunk is the head of the
chunk list; `bytes_left = end - idx - 1` in size_t arithmetic (the
subtraction wraps when the cursor has overrun the end).  A fitting request
bumps within the current chunk.  Otherwise a new chunk of
`max(bytes, bytes_growth)` bytes rounded up to whole pages is obtained from
palloc (null propagates, the arena untouched), initialised with
`struct_size = sizeof(struct arena_page)`, pushed at the head — and then
`alloc_in_page(curr_page, growth)` bumps by the full `growth`, not by
`bytes`. -/
def arena_alloc (s : PState) (A : ArenaSt) (bytes : Nat) :
    Option (Option Nat × ArenaSt × PState) :=
  match A.chunks with
  | [] => none
  | c :: rest =>
    let bytes_left := (usize_mod + c.endp - (c.idx + 1)) % usize_mod
    if bytes ≤ bytes_left then
      let r := alloc_in_page c bytes
      some (some r.1, { A with chunks := r.2 :: rest }, s)
    else
      let growth := max bytes A.growth
      let num_pages := bytes_to_page growth page_size
      match palloc s num_pages with
      | none => none
      | some (none, s') => some (none, A, s')
      | some (some a, s') =>
        let c2 := arena_page_init a sizeof_arena_page (num_pages * page_size)
        let r := alloc_in_page c2 growth
        some (some r.1, { A with chunks := r.2 :: A.chunks }, s')

/-- arena_free (src/arena.c:54-66): `free_last` is the chunk at the head of
the list (the most recently added one — the source's comment claims it is
the page the arena is allocated on); the loop walks the whole list in order
and pfrees every chunk whose address differs from `free_last`, then pfrees
`free_last`.  Returns the sequence of base addresses in the order they are
handed to pfree, and the resulting page-allocator state. -/
def arena_free (s : PState) (A : ArenaSt) : Option (List Nat × PState) :=
  match A.chunks with
  | [] => none
  | free_last :: _ =>
    let order := (A.chunks.filter (fun c => c.base ≠ free_last.base)).map (fun c => c.base)
      ++ [free_last.base]
    (order.foldlM (fun st a => pfree st a) s).map (fun s' => (order, s'))

/-- One external event against the page allocator: a `palloc` call, a
`pfree` call, or the user storing a byte into memory it owns. -/
inductive Op where
  | palloc : Nat → Op
  | pfree : Nat → Op
  | poke : Nat → Nat → Op
deriving DecidableEq, Repr

/-- Effect of one event on the allocator state; `none` is an aborting run
(the source would kill the process or hit undefined behaviour). -/
def stepOp (s : PState) : Op → Option PState
  | Op.palloc n => (palloc s n).map (fun r => r.2)
  | Op.pfree a => pfree s a
  | Op.poke a v => some (memWrite s a v)

/-- Run a sequence of events from a state. -/
def runOps (s : PState) : List Op → Option PState
  | [] => some s
  | op :: ops => (stepOp s op).bind (fun s' => runOps s' ops)

/-- States the allocator can actually be in at a lock-release point: the
initial state and everything a successful event leads to. -/
inductive Reachable : PState → Prop where
  | init : Reachable initState
  | step {s : PState} {op : Op} {s' : PState} :
      Reachable s → stepOp s op = some s' → Reachable s'

/-- Sum of `page_num` over the free collection, the quantity the source's
comment says `free_page_num` caches. -/
def freePagesSum (s : PState) : Nat :=
  (s.free_list.map (fun d => (slotD s d).page_num)).sum

/-- Auxiliary state invariant, the part that also holds at the transient
states inside a palloc call: internal page bases are distinct, dynamically
created pages sit at mapped (hence page-sized-or-larger) addresses, no page
counts fewer heads than it has occupied slots, every descriptor linked on
the used or free list points at an existing occupied slot holding a mapped
address, the run lists carry no duplicate descriptors, the fresh-map
counter stays at or above one page, and no unmap was ever issued for the
statically reserved block. -/
structure PreInv (s : PState) : Prop where
  nodup : (s.ipages.map (fun P => P.base)).Nodup
  dynBase : ∀ P ∈ s.ipages, P.base ≠ static_base → page_size ≤ P.base
  numOcc : ∀ P ∈ s.ipages, occ P ≤ P.page_heads_num
  descOk : ∀ d ∈ s.used_list ++ s.free_list,
    ∃ hd, getSlot s d = some hd ∧ ∃ a, hd.addr = some a ∧ page_size ≤ a
  listNodup : (s.used_list ++ s.free_list).Nodup
  nextOk : page_size ≤ s.nextMap
  logOk : ∀ e ∈ s.unmaps, e.1 ≠ some static_base

/-- Full lock-release invariant: additionally, the statically reserved
page — once linked — always counts strictly more heads than it has
occupied slots (each palloc bumps `page_heads_num` once in
find_free_page_head and once more in palloc itself, while pfree's
eviction path decrements it at most once), so the second-chance sweep
never sees it empty. -/
structure Inv (s : PState) extends PreInv s : Prop where
  staticNum : ∀ P ∈ s.ipages, P.base = static_base → occ P + 1 ≤ P.page_heads_num

/-- Per-page slack monotonicity between two states: any lower bound on
`page_heads_num - occ` of the page at a given base transfers from the
first state to the second. -/
def slackGe (s s' : PState) : Prop :=
  ∀ b P P', getPage s b = some P → getPage s' b = some P' →
    ∀ k, occ P + k ≤ P.page_heads_num → occ P' + k ≤ P'.page_heads_num

/-! ### Concrete traces used by the claim theorems -/

/-- Allocate one page (mapped at 4096), store the byte 0xAB = 171 into it,
free it.  `free_page_num` is 0 at the pfree, so the run is retained. -/
def c1_trace : Option PState :=
  runOps initState [Op.palloc 1, Op.poke 4096 171, Op.pfree 4096]

/-- The state just before the retaining pfree of the C1 trace. -/
def c1_mid : PState :=
  (runOps initState [Op.palloc 1, Op.poke 4096 171]).getD initState

/-- palloc(18) at 4096, pfree (retained, free_page_num = 18), palloc(1)
(splits the 18-page run, emptying the free list while free_page_num stays
17), palloc(1) (fresh map at 77824).  The next pfree of 77824 takes the
eviction path and finds no internal page to free. -/
def c2_ops : List Op :=
  [Op.palloc 18, Op.pfree 4096, Op.palloc 1, Op.palloc 1]

/-- palloc(2) at 4096, pfree (retained), palloc(1): the oversized free run
is split. -/
def c3_trace : Option PState :=
  runOps initState [Op.palloc 2, Op.pfree 4096, Op.palloc 1]

/-- A two-chunk arena: created with one page (arena structure at 4096),
then one `arena_alloc(A, page_size)` request that does not fit the first
chunk and creates a second chunk at 8192. -/
def c4_setup : Option (ArenaSt × PState) :=
  (arena_create_ext initState page_size page_size).bind (fun r =>
    r.1.bind (fun A => (arena_alloc r.2 A page_size).map (fun t => (t.2.1, t.2.2))))

/-- Result (pointer, arena, state) of the growth `arena_alloc` of the C4
setup. -/
def c5_result : Option (Option Nat × ArenaSt × PState) :=
  (arena_create_ext initState page_size page_size).bind (fun r =>
    r.1.bind (fun A => arena_alloc r.2 A page_size))

/-- Trace leading to an eviction-path pfree whose freed descriptor lives on
the static internal page while a second (dynamic, empty, unmarked) internal
page at 200704 is linked: palloc(18)/pfree/palloc(1) inflate
`free_page_num` to 17 with an empty free list, thirty palloc(1) calls fill
the static page's 32 slots, the next palloc(1) creates the dynamic
internal page at 200704 backed by a fresh map and places its run descriptor
in that page's slot 0, and pfree of that run (204800) empties the dynamic
page again. -/
def c7_ops_pre : List Op :=
  [Op.palloc 18, Op.pfree 4096, Op.palloc 1] ++ List.replicate 30 (Op.palloc 1)
    ++ [Op.palloc 1, Op.pfree 204800]

/-- State just before the final pfree of the C7 scenario. -/
def c7_before : Option PState := runOps initState c7_ops_pre

/-- State after pfree(4096): the freed descriptor is slot 1 of the static
page, so its containing page C is the static one. -/
def c7_after : Option PState := c7_before.bind (fun s => pfree s 4096)

/-- palloc(1) at 4096, pfree (retained), palloc(1): the second palloc takes
one fresh descriptor slot and then exact-matches the free run. -/
def c8_state : Option PState :=
  runOps initState [Op.palloc 1, Op.pfree 4096, Op.palloc 1]

/-- palloc(16) at 4096, palloc(1) at 69632, pfree(4096): the free
collection now holds exactly MAX_PAGES_FREE_LIST = 16 pages. -/
def c9_pre_state : PState :=
  (runOps initState [Op.palloc 16, Op.palloc 1, Op.pfree 4096]).getD initState

/-- The state after the very first palloc: the static block is linked and
holds one used descriptor. -/
def c6_state : PState :=
  ((palloc initState 1).getD (none, initState)).2

/-! ### Helper lemmas about memory contents

Neither allocator routine stores to run contents: there is no memset on
pfree's retain path nor on find_free_pages' reuse path, so the byte store
of the model passes through every operation unchanged. -/

theorem setPage_mem (s : PState) (b : Nat) (f : InternalPage → InternalPage) :
    (setPage s b f).mem = s.mem := rfl

theorem setSlot_mem (s : PState) (d : DescId) (h : PageHead) :
    (setSlot s d h).mem = s.mem := rfl

theorem find_internal_page_to_free_mem (s : PState) :
    (find_internal_page_to_free s).2.mem = s.mem := rfl

theorem find_free_page_head_mem (s : PState) :
    (find_free_page_head s).2.mem = s.mem := by
  unfold find_free_page_head
  cases ffph_aux s.ipages <;> rfl

theorem find_free_pages_mem (s : PState) (pnum : Nat) (el : Bool) (a : Nat)
    (ex : Option PageHead) (s' : PState)
    (h : find_free_pages s pnum el = some (a, ex, s')) : s'.mem = s.mem := by
  unfold find_free_pages at h
  dsimp only at h
  split at h
  · simp only [Option.some.injEq, Prod.mk.injEq] at h
    obtain ⟨-, -, rfl⟩ := h
    rfl
  · split at h
    · simp only [Option.some.injEq, Prod.mk.injEq] at h
      obtain ⟨-, -, rfl⟩ := h
      rfl
    · split at h
      · simp only [Option.some.injEq, Prod.mk.injEq] at h
        obtain ⟨-, -, rfl⟩ := h
        rfl
      · split at h
        · exact absurd h (by simp)
        next e s1 heq =>
          simp only [Option.some.injEq, Prod.mk.injEq] at h
          obtain ⟨-, -, rfl⟩ := h
          have h1 : s1.mem = s.mem := by
            have := find_free_page_head_mem s
            rw [heq] at this
            exact this
          simpa [setSlot_mem] using h1

theorem palloc_mem (s : PState) (n : Nat) (r : Option Nat × PState)
    (h : palloc s n = some r) : r.2.mem = s.mem := by
  have hbase : (if s.ipages.isEmpty then { s with ipages := [staticInternalPage] } else s).mem
      = s.mem := by split <;> rfl
  unfold palloc at h
  dsimp only at h
  split at h
  · simp only [Option.some.injEq] at h
    subst h
    rfl
  · split at h
    next fh s1 hfh =>
      split at h
      · exact absurd h (by simp)
      · split at h
        · exact absurd h (by simp)
        next a2 ex s3 hffp =>
          simp only [Option.some.injEq] at h
          subst h
          have h2 := find_free_pages_mem _ _ _ _ _ _ hffp
          have h1 : s1.mem
              = (if s.ipages.isEmpty then { s with ipages := [staticInternalPage] } else s).mem := by
            have := find_free_page_head_mem
              (if s.ipages.isEmpty then { s with ipages := [staticInternalPage] } else s)
            rw [hfh] at this
            exact this
          simp only [setSlot_mem]
          simp only [setPage_mem] at h2
          exact (h2.trans h1).trans hbase
    next s1 hfh =>
      split at h
      · exact absurd h (by simp)
      next pbase ex s2 hffp =>
        split at h
        · exact absurd h (by simp)
        · split at h
          · exact absurd h (by simp)
          next a2 ex2 s6 hffp2 =>
            simp only [Option.some.injEq] at h
            subst h
            have h2 := find_free_pages_mem _ _ _ _ _ _ hffp2
            have h1 := find_free_pages_mem _ _ _ _ _ _ hffp
            simp only [setSlot_mem]
            refine Eq.trans ?_ ((h1.trans hbase) : s2.mem = s.mem)
            refine h2.trans ?_
            split <;> rfl

theorem pfree_mem (s : PState) (a : Nat) (s' : PState)
    (h : pfree s a = some s') : s'.mem = s.mem := by
  unfold pfree at h
  dsimp only at h
  split at h
  · simp only [Option.some.injEq] at h
    subst h
    rfl
  · split at h
    · simp only [Option.some.injEq] at h
      subst h
      rfl
    · split at h
      · exact absurd h (by simp)
      · split at h
        · split at h
          · exact absurd h (by simp)
          · simp only [Option.some.injEq] at h
            subst h
            rfl
        · simp only [Option.some.injEq] at h
          subst h
          rfl

/-! ### Claim theorems -/

/-- C1, counterexample.  After palloc(1), the caller storing 0xAB = 171
into the run and a pfree that retains it (descriptor on the free list,
`free_page_num = 1`), the byte still reads 171, not zero; and palloc(1)
through the reuse path returns the very same address 4096 with the byte
still reading 171.  Neither pfree's retain path nor find_free_pages zeroes
anything. -/
theorem C1_counterexample :
    (c1_trace.map (fun s => (memRead s 4096, s.free_list, s.free_page_num))
       = some (171, [⟨100, 0⟩], 1))
  ∧ (c1_trace.bind (fun s => (palloc s 1).map (fun r => (r.1, memRead r.2 4096)))
       = some (some 4096, 171))
  ∧ (171 : Nat) ≠ 0 := by
  refine ⟨?_, ?_, by decide⟩ <;> rfl

/-- C1, amended: no path of pfree or palloc writes to memory contents at
all — a retained run keeps whatever bytes the caller left in it, and the
reuse path of palloc returns memory with its previous contents unchanged;
only freshly OS-mapped runs read zero. -/
theorem C1_amended_no_zeroing :
    ∀ (s : PState) (a n : Nat),
      (∀ s', pfree s a = some s' → s'.mem = s.mem)
      ∧ (∀ r, palloc s n = some r → r.2.mem = s.mem) :=
  fun s a n =>
    ⟨fun s' h => pfree_mem s a s' h, fun r h => palloc_mem s n r h⟩

/-- C1, witness for the amended theorem at the concrete retaining pfree of
the counterexample trace. -/
theorem C1_amended_no_zeroing_witness :
    pfree c1_mid 4096 = some ((pfree c1_mid 4096).getD initState)
  ∧ ((pfree c1_mid 4096).getD initState).mem = c1_mid.mem :=
  ⟨by decide, (C1_amended_no_zeroing c1_mid 4096 0).1 _ (by decide)⟩

/-- C2.  In the state reached by c2_ops, `free_page_num = 17` exceeds the
cap and no unmap has been issued yet; the pfree of the known used run at
77824 then takes the eviction path, the sweep finds no internal page to
free, and the single `__unmap_pages` call of the whole trace carries a NULL
address (the source nulls `entry->addr` before passing it to
`__unmap_pages`) instead of unmapping [77824, 77824 + 4096). -/
theorem C2_eviction_unmaps_null_address :
    ((runOps initState c2_ops).map (fun s => (s.free_page_num, s.unmaps))
       = some (17, []))
  ∧ MAX_PAGES_FREE_LIST < 17
  ∧ ((runOps initState (c2_ops ++ [Op.pfree 77824])).map (fun s => s.unmaps)
       = some [(none, page_size)]) := by
  refine ⟨by rfl, by decide, by rfl⟩

/-- C3.  After palloc(2); pfree; palloc(1), the split has moved the only
free descriptor to the used list and decreased `free_page_num` by the
requested count only: `free_page_num = 1` while the free collection is
empty (sum 0).  The leftover one-page descriptor was never linked into the
free collection (find_free_pages writes it to an extra head and forgets
it). -/
theorem C3_split_breaks_free_total :
    (c3_trace.map (fun s => (s.free_page_num, freePagesSum s, s.free_list))
       = some (1, 0, []))
  ∧ (1 : Nat) ≠ 0 := by
  refine ⟨by rfl, by decide⟩

/-- C4.  For the two-chunk arena of c4_setup, the chunk hosting the arena
structure is the last element of the slink list (base 4096), yet
arena_free hands the chunks to pfree in the order [4096, 8192]: the
hosting chunk is released first and the most recently added chunk last,
the opposite of the claim. -/
theorem C4_host_chunk_freed_first :
    (c4_setup.map (fun t => t.1.chunks.getLast?.map (fun c => c.base)))
       = some (some 4096)
  ∧ (c4_setup.bind (fun t => (arena_free t.2 t.1).map (fun u => u.1)))
       = some [4096, 8192]
  ∧ (4096 : Nat) ≠ 8192 := by
  refine ⟨by rfl, by rfl, by decide⟩

/-- C5.  The growth arena_alloc of c5_result returns pointer 8216 inside a
fresh one-page chunk [8192, 12288), but bumps the cursor by the full
growth amount past the header: the chunk ends with `idx = 12312 > endp =
12288`, violating `cursor <= end`, and the returned byte range
[8216, 8216 + 4096) also runs past `endp`. -/
theorem C5_cursor_overruns_chunk_end :
    (c5_result.map (fun t => (t.1, t.2.1.chunks.head?.map (fun c => (c.idx, c.endp)))))
       = some (some 8216, some (12312, 12288))
  ∧ (12288 : Nat) < 12312
  ∧ (12288 : Nat) < 8216 + page_size := by
  refine ⟨by rfl, by decide, by decide⟩

/-- C7, counterexample.  In the state c7_before, `free_page_num = 17` (the
next pfree of a used run takes the eviction path), the descriptor of the
run at 4096 is slot 1 of the static internal page (base 100), and both
internal pages (the dynamic one at 200704 and the static one) have their
second-chance flags clear.  After pfree(4096) — whose containing metadata
page C is the static page — the *other* page at 200704 has its
second-chance flag set while C's flag is untouched: the sweep examines and
marks empty pages anywhere in the list, not C. -/
theorem C7_counterexample :
    (c7_before.map (fun s =>
        (s.free_page_num,
         s.used_list.find? (fun d => (slotD s d).addr == some 4096),
         (getPage s 200704).map (fun P => P.second_chance),
         (getPage s 100).map (fun P => P.second_chance)))
       = some (17, some ⟨100, 1⟩, some false, some false))
  ∧ (c7_after.map (fun s =>
        ((getPage s 200704).map (fun P => P.second_chance),
         (getPage s 100).map (fun P => P.second_chance)))
       = some (some true, some false))
  ∧ (200704 : Nat) ≠ 100 := by
  refine ⟨by rfl, by rfl, by decide⟩

/-- Element-wise effect of the second-chance sweep: each internal page is
either untouched or, exactly when empty with a clear flag, gets its flag
set. -/
theorem fiptf_aux_rel (l : List InternalPage) :
    List.Forall₂ (fun P P' => P' = P ∨
        (P.page_heads_num = 0 ∧ P.second_chance = false
          ∧ P' = { P with second_chance := true }))
      l (find_internal_page_to_free_aux l).2 := by
  induction l with
  | nil => exact List.Forall₂.nil
  | cons P rest ih =>
    show List.Forall₂ _ _ (find_internal_page_to_free_aux (P :: rest)).2
    unfold find_internal_page_to_free_aux
    by_cases h1 : P.page_heads_num = 0
    · rw [if_pos h1]
      by_cases h2 : P.second_chance = true
      · rw [if_pos h2]
        exact List.Forall₂.cons (Or.inl rfl)
          (List.forall₂_same.2 (fun x _ => Or.inl rfl))
      · rw [if_neg h2]
        exact List.Forall₂.cons (Or.inr ⟨h1, by simpa using h2, rfl⟩) ih
    · rw [if_neg h1]
      exact List.Forall₂.cons (Or.inl rfl) ih

/-- C7, amended.  On the eviction path the sweep walks the whole internal
page list: every page is either left unchanged or — exactly when it is
empty (`page_heads_num = 0`) with a clear second-chance flag — gets its
flag set, regardless of whether it contains the just-freed descriptor; and
on the no-page-found branch the freed descriptor's slot is indeed marked
unoccupied before the run is unmapped (shown at the concrete C7 trace
where slot 1 of the static page ends up with the NULL sentinel). -/
theorem C7_amended_sweep :
    (∀ s : PState,
      List.Forall₂ (fun P P' => P' = P ∨
          (P.page_heads_num = 0 ∧ P.second_chance = false
            ∧ P' = { P with second_chance := true }))
        s.ipages (find_internal_page_to_free s).2.ipages)
  ∧ (c7_after.map (fun s => slotD s ⟨100, 1⟩) = some ⟨none, 1⟩) :=
  ⟨fun s => fiptf_aux_rel s.ipages, rfl⟩

/-- C8.  After palloc(1); pfree; palloc(1), the used list carries two
distinct occupied descriptors — slot 1 and slot 0 of the static page —
both describing the same range [4096, 4096 + page_size): find_free_pages
moved the free-list descriptor to the used list and palloc pushed a second
descriptor for the same run. -/
theorem C8_duplicate_used_descriptors :
    (c8_state.map (fun s => (s.used_list, s.used_list.map (fun d => slotD s d)))
       = some ([⟨100, 1⟩, ⟨100, 0⟩], [⟨some 4096, 1⟩, ⟨some 4096, 1⟩]))
  ∧ (⟨100, 1⟩ : DescId) ≠ ⟨100, 0⟩ := by
  refine ⟨by rfl, by decide⟩

/-- C9, counterexample.  In c9_pre_state the free collection holds exactly
MAX_PAGES_FREE_LIST = 16 pages (`free_page_num = 16` equals the sum over
the free list), yet the next pfree of the known used run at 69632 retains
it: the descriptor joins the free list, `free_page_num` becomes 17, and no
unmap is issued. -/
theorem C9_counterexample :
    ((c9_pre_state.free_page_num, freePagesSum c9_pre_state) = (16, 16))
  ∧ (pfree c9_pre_state 69632 = some { c9_pre_state with
        used_list := c9_pre_state.used_list.erase ⟨100, 1⟩,
        free_list := ⟨100, 1⟩ :: c9_pre_state.free_list,
        free_page_num := 17 })
  ∧ ((pfree c9_pre_state 69632).map (fun s => s.unmaps) = some []) := by
  refine ⟨by decide, by rfl, by rfl⟩

/-- C9, amended.  pfree retains a found run whenever
`free_page_num <= MAX_PAGES_FREE_LIST` (so also when the free collection
holds exactly MAX_PAGES_FREE_LIST pages); it unmaps instead of retaining
only when `free_page_num` strictly exceeds the cap, in which case the free
collection and its counter are left unchanged. -/
theorem C9_amended_cap_is_inclusive (s : PState) (a : Nat) (d : DescId)
    (hfind : s.used_list.find?
        (fun e => (slotD s e).addr == some (a / page_size * page_size)) = some d) :
    (s.free_page_num ≤ MAX_PAGES_FREE_LIST →
        pfree s a = some { s with used_list := s.used_list.erase d,
                                  free_list := d :: s.free_list,
                                  free_page_num := s.free_page_num + (slotD s d).page_num })
  ∧ (MAX_PAGES_FREE_LIST < s.free_page_num →
        ∀ s', pfree s a = some s' →
          s'.free_list = s.free_list ∧ s'.free_page_num = s.free_page_num) := by
  constructor
  · intro hle
    unfold pfree
    dsimp only
    rw [hfind]
    dsimp only
    rw [if_pos hle]
    rfl
  · intro hgt s' h
    unfold pfree at h
    dsimp only at h
    rw [hfind] at h
    dsimp only at h
    rw [if_neg (by omega)] at h
    split at h
    · exact absurd h (by simp)
    · split at h
      · split at h
        · exact absurd h (by simp)
        · simp only [Option.some.injEq] at h
          subst h
          exact ⟨rfl, rfl⟩
      · simp only [Option.some.injEq] at h
        subst h
        exact ⟨rfl, rfl⟩

/-- C9, witness for the amended theorem at the concrete state holding
exactly 16 free pages. -/
theorem C9_amended_cap_is_inclusive_witness :
    (c9_pre_state.used_list.find?
        (fun e => (slotD c9_pre_state e).addr == some (69632 / page_size * page_size))
       = some ⟨100, 1⟩)
  ∧ c9_pre_state.free_page_num ≤ MAX_PAGES_FREE_LIST
  ∧ pfree c9_pre_state 69632 = some { c9_pre_state with
        used_list := c9_pre_state.used_list.erase ⟨100, 1⟩,
        free_list := ⟨100, 1⟩ :: c9_pre_state.free_list,
        free_page_num := c9_pre_state.free_page_num + (slotD c9_pre_state ⟨100, 1⟩).page_num } :=
  ⟨by decide, by decide,
   (C9_amended_cap_is_inclusive c9_pre_state 69632 ⟨100, 1⟩ (by decide)).1 (by decide)⟩

/-- C10.  Zero bytes round up to zero pages, palloc(0) returns null with
the state untouched (the EINVAL early return precedes every state update),
and so arena_create_ext(0, g) returns null and leaves the page allocator's
state unchanged, for every growth value and every starting state. -/
theorem C10_arena_create_zero_bytes (s : PState) (g : Nat) :
    bytes_to_page 0 page_size = 0
  ∧ palloc s 0 = some (none, s)
  ∧ arena_create_ext s 0 g = some (none, s) :=
  ⟨rfl, rfl, rfl⟩

/-! ### Basic lemmas about page and slot access -/

theorem getPage_base {s : PState} {b : Nat} {P : InternalPage}
    (h : getPage s b = some P) : P.base = b := by
  have := List.find?_some h
  simpa using this

theorem getPage_mem {s : PState} {b : Nat} {P : InternalPage}
    (h : getPage s b = some P) : P ∈ s.ipages :=
  List.mem_of_find?_eq_some h

theorem find?_base_eq_of_mem {l : List InternalPage} {P : InternalPage}
    (hnd : (l.map (fun Q => Q.base)).Nodup) (hmem : P ∈ l) :
    l.find? (fun Q => Q.base == P.base) = some P := by
  induction l with
  | nil => cases hmem
  | cons Q rest ih =>
    have hnd' : (rest.map (fun Q => Q.base)).Nodup := (List.nodup_cons.1 hnd).2
    have hnin : Q.base ∉ rest.map (fun Q => Q.base) := (List.nodup_cons.1 hnd).1
    rcases List.mem_cons.1 hmem with rfl | hmem'
    · exact List.find?_cons_of_pos _ (by simp)
    · have hb : Q.base ≠ P.base := by
        intro he
        exact hnin (he ▸ List.mem_map.2 ⟨P, hmem', rfl⟩)
      rw [List.find?_cons_of_neg _ (by simpa using hb)]
      exact ih hnd' hmem'

theorem getPage_eq_of_mem {s : PState} {P : InternalPage}
    (hnd : (s.ipages.map (fun Q => Q.base)).Nodup) (hmem : P ∈ s.ipages) :
    getPage s P.base = some P :=
  find?_base_eq_of_mem hnd hmem

theorem base_mem_of_getPage {s : PState} {b : Nat} {P : InternalPage}
    (h : getPage s b = some P) : b ∈ s.ipages.map (fun Q => Q.base) :=
  (getPage_base h) ▸ List.mem_map.2 ⟨P, getPage_mem h, rfl⟩

theorem getPage_of_base_mem {s : PState} {b : Nat}
    (h : b ∈ s.ipages.map (fun Q => Q.base)) : ∃ P, getPage s b = some P := by
  rcases hcase : getPage s b with _ | P
  · exfalso
    rcases List.mem_map.1 h with ⟨P, hmem, hb⟩
    exact (List.find?_eq_none.1 hcase P hmem) (by simpa using hb)
  · exact ⟨P, rfl⟩

theorem setPage_ipages (s : PState) (b : Nat) (f : InternalPage → InternalPage) :
    (setPage s b f).ipages = s.ipages.map (fun P => if P.base = b then f P else P) := rfl

theorem bases_setPage (f : InternalPage → InternalPage)
    (hf : ∀ P, (f P).base = P.base) (s : PState) (b : Nat) :
    (setPage s b f).ipages.map (fun P => P.base)
      = s.ipages.map (fun P => P.base) := by
  rw [setPage_ipages, List.map_map]
  exact List.map_congr_left (fun P _ => by
    by_cases hb : P.base = b <;> simp [Function.comp, hb, hf])

theorem getPage_setPage (f : InternalPage → InternalPage)
    (hf : ∀ P, (f P).base = P.base) (s : PState) (b b' : Nat) :
    getPage (setPage s b f) b'
      = (getPage s b').map (fun P => if P.base = b then f P else P) := by
  show (s.ipages.map _).find? _ = _
  rw [List.find?_map]
  have hp : ((fun P : InternalPage => P.base == b') ∘ fun P => if P.base = b then f P else P)
      = (fun P : InternalPage => P.base == b') := by
    funext P
    by_cases hb : P.base = b <;> simp [Function.comp, hb, hf]
  rw [hp]
  rfl

theorem bases_setSlot (s : PState) (d : DescId) (h : PageHead) :
    (setSlot s d h).ipages.map (fun P => P.base)
      = s.ipages.map (fun P => P.base) :=
  bases_setPage (fun P => { P with slots := P.slots.set d.idx h }) (fun _ => rfl) s d.pageBase

theorem getSlot_setPage (f : InternalPage → InternalPage)
    (hf : ∀ P, (f P).base = P.base ∧ (f P).slots = P.slots)
    (s : PState) (b : Nat) (e : DescId) :
    getSlot (setPage s b f) e = getSlot s e := by
  unfold getSlot
  rw [getPage_setPage f (fun P => (hf P).1)]
  rcases hgp : getPage s e.pageBase with _ | P
  · rfl
  · by_cases hb : P.base = b <;> simp [hb, (hf P).2]

theorem getSlot_setSlot_self {s : PState} {d : DescId} {P : InternalPage}
    (hgp : getPage s d.pageBase = some P) (hlt : d.idx < P.slots.length)
    (h : PageHead) :
    getSlot (setSlot s d h) d = some h := by
  unfold getSlot setSlot
  rw [getPage_setPage (fun P => { P with slots := P.slots.set d.idx h }) (fun _ => rfl), hgp]
  simp [getPage_base hgp, List.getElem?_set_self (by simpa using hlt)]

theorem getSlot_setSlot_ne {s : PState} {d e : DescId} (hne : e ≠ d) (h : PageHead) :
    getSlot (setSlot s d h) e = getSlot s e := by
  unfold getSlot setSlot
  rw [getPage_setPage (fun P => { P with slots := P.slots.set d.idx h }) (fun _ => rfl)]
  rcases hgp : getPage s e.pageBase with _ | P
  · rfl
  · have hbase := getPage_base hgp
    by_cases hb : P.base = d.pageBase
    · have hidx : d.idx ≠ e.idx := by
        intro he
        exact hne (by cases d; cases e; simp_all)
      simp [hb, List.getElem?_set_ne hidx]
    · simp [hb]

/-! ### Occupancy counting -/

theorem filter_length_set (l : List PageHead) (i : Nat) (hd x : PageHead)
    (h : l[i]? = some hd) :
    ((l.set i x).filter (fun y => y.addr.isSome)).length
        + (if hd.addr.isSome then 1 else 0)
      = (l.filter (fun y => y.addr.isSome)).length
        + (if x.addr.isSome then 1 else 0) := by
  induction l generalizing i with
  | nil => simp at h
  | cons y ys ih =>
    cases i with
    | zero =>
      simp only [List.getElem?_cons_zero, Option.some.injEq] at h
      subst h
      simp only [List.set_cons_zero, List.filter_cons]
      by_cases hy : y.addr.isSome = true <;> by_cases hx : x.addr.isSome = true <;>
        simp [hy, hx]
    | succ n =>
      simp only [List.getElem?_cons_succ] at h
      have hrec := ih n h
      simp only [List.set_cons_succ, List.filter_cons]
      by_cases hy : y.addr.isSome = true <;> simp [hy] <;> omega

theorem occ_set {P : InternalPage} {i : Nat} {hd : PageHead} (x : PageHead)
    (h : P.slots[i]? = some hd) :
    occ { P with slots := P.slots.set i x } + (if hd.addr.isSome then 1 else 0)
      = occ P + (if x.addr.isSome then 1 else 0) :=
  filter_length_set P.slots i hd x h

theorem occ_pos {P : InternalPage} {i : Nat} {hd : PageHead}
    (h : P.slots[i]? = some hd) (ha : hd.addr.isSome) : 1 ≤ occ P := by
  have hm : hd ∈ P.slots.filter (fun y => y.addr.isSome) :=
    List.mem_filter.2 ⟨List.getElem?_mem h, ha⟩
  exact List.length_pos_of_mem hm

/-! ### Specifications of the scan helpers -/

theorem firstFreeSlot_spec {l : List PageHead} {i : Nat}
    (h : firstFreeSlot l = some i) :
    ∃ hd, l[i]? = some hd ∧ hd.addr = none := by
  induction l generalizing i with
  | nil => simp [firstFreeSlot] at h
  | cons y ys ih =>
    unfold firstFreeSlot at h
    split at h
    · simp only [Option.some.injEq] at h
      subst h
      exact ⟨y, by simp, by assumption⟩
    · rcases Option.map_eq_some'.1 h with ⟨j, hj, rfl⟩
      rcases ih hj with ⟨hd, hget, haddr⟩
      exact ⟨hd, by simpa using hget, haddr⟩

theorem ffph_aux_spec {l : List InternalPage} {d : DescId}
    (h : ffph_aux l = some d) :
    ∃ P ∈ l, P.base = d.pageBase
      ∧ ∃ hd, P.slots[d.idx]? = some hd ∧ hd.addr = none := by
  induction l with
  | nil => simp [ffph_aux] at h
  | cons P rest ih =>
    unfold ffph_aux at h
    split at h
    next i hfs =>
      simp only [Option.some.injEq] at h
      subst h
      rcases firstFreeSlot_spec hfs with ⟨hd, hget, haddr⟩
      have hlen : i < (P.slots.take P.cap).length := by
        rcases List.getElem?_eq_some.1 hget with ⟨hlt, -⟩
        exact hlt
      have hcap : i < P.cap := lt_of_lt_of_le hlen (by simp [List.length_take])
      refine ⟨P, List.mem_cons_self _ _, rfl, hd, ?_, haddr⟩
      rw [← List.getElem?_take_of_lt hcap]
      exact hget
    · rcases ih h with ⟨Q, hm, hb, rest'⟩
      exact ⟨Q, List.mem_cons_of_mem _ hm, hb, rest'⟩

theorem fiptf_aux_shape (l : List InternalPage) :
    List.Forall₂ (fun P P' => P'.base = P.base
        ∧ P'.page_heads_num = P.page_heads_num ∧ P'.slots = P.slots)
      l (find_internal_page_to_free_aux l).2 :=
  (fiptf_aux_rel l).imp (by
    rintro a b (rfl | ⟨h0, hf, rfl⟩) <;> simp)

theorem fiptf_aux_select {l : List InternalPage} {b : Nat}
    (h : (find_internal_page_to_free_aux l).1 = some b) :
    ∃ P ∈ l, P.base = b ∧ P.page_heads_num = 0 := by
  induction l with
  | nil => simp [find_internal_page_to_free_aux] at h
  | cons P rest ih =>
    unfold find_internal_page_to_free_aux at h
    by_cases h1 : P.page_heads_num = 0
    · rw [if_pos h1] at h
      by_cases h2 : P.second_chance = true
      · rw [if_pos h2] at h
        simp only [Option.some.injEq] at h
        exact ⟨P, List.mem_cons_self _ _, h, h1⟩
      · rw [if_neg h2] at h
        rcases ih h with ⟨Q, hm, hb, hn⟩
        exact ⟨Q, List.mem_cons_of_mem _ hm, hb, hn⟩
    · rw [if_neg h1] at h
      rcases ih h with ⟨Q, hm, hb, hn⟩
      exact ⟨Q, List.mem_cons_of_mem _ hm, hb, hn⟩

theorem find?_forall₂_base {l l' : List InternalPage}
    (h : List.Forall₂ (fun P P' => P'.base = P.base
        ∧ P'.page_heads_num = P.page_heads_num ∧ P'.slots = P.slots) l l')
    (b : Nat) :
    (l.find? (fun P => P.base == b) = none
        ∧ l'.find? (fun P => P.base == b) = none)
    ∨ ∃ P P', l.find? (fun P => P.base == b) = some P
        ∧ l'.find? (fun Q => Q.base == b) = some P'
        ∧ P'.base = P.base ∧ P'.page_heads_num = P.page_heads_num
        ∧ P'.slots = P.slots := by
  induction h with
  | nil => left; simp
  | @cons P P' L L' hr _ ih =>
    by_cases hb : P.base = b
    · right
      refine ⟨P, P', List.find?_cons_of_pos _ (by simpa using hb), ?_, hr⟩
      exact List.find?_cons_of_pos _ (by simp [hr.1, hb])
    · rw [List.find?_cons_of_neg _ (by simpa using hb),
          List.find?_cons_of_neg _ (by simp [hr.1, hb])]
      exact ih

theorem find?_filter_base_ne (l : List InternalPage) (cb b : Nat) (hb : b ≠ cb) :
    (l.filter (fun P => P.base ≠ cb)).find? (fun P => P.base == b)
      = l.find? (fun P => P.base == b) := by
  induction l with
  | nil => rfl
  | cons P rest ih =>
    by_cases hPb : P.base = b
    · have : P.base ≠ cb := by rw [hPb]; exact hb
      rw [List.filter_cons_of_pos (by simpa using this),
          List.find?_cons_of_pos _ (by simpa using hPb),
          List.find?_cons_of_pos _ (by simpa using hPb)]
    · by_cases hPc : P.base = cb
      · rw [List.filter_cons_of_neg (by simpa using hPc),
            List.find?_cons_of_neg _ (by simpa using hPb)]
        exact ih
      · rw [List.filter_cons_of_pos (by simpa using hPc),
            List.find?_cons_of_neg _ (by simpa using hPb),
            List.find?_cons_of_neg _ (by simpa using hPb)]
        exact ih

/-! ### State-level consequences for the sweep and general helpers -/

theorem forall₂_mem_right {α β : Type} {R : α → β → Prop} {l : List α} {l' : List β}
    (h : List.Forall₂ R l l') : ∀ b ∈ l', ∃ a ∈ l, R a b := by
  induction h with
  | nil => intro b hb; cases hb
  | @cons x y L L' hr _ ih =>
    intro b hb
    rcases List.mem_cons.1 hb with rfl | hb'
    · exact ⟨x, List.mem_cons_self _ _, hr⟩
    · rcases ih b hb' with ⟨a, ha, hra⟩
      exact ⟨a, List.mem_cons_of_mem _ ha, hra⟩

theorem forall₂_base_map_eq {l l' : List InternalPage}
    (h : List.Forall₂ (fun P P' => P'.base = P.base
        ∧ P'.page_heads_num = P.page_heads_num ∧ P'.slots = P.slots) l l') :
    l'.map (fun P => P.base) = l.map (fun P => P.base) := by
  induction h with
  | nil => rfl
  | cons hr _ ih => simp [hr.1, ih]

theorem fiptf_bases (s : PState) :
    (find_internal_page_to_free s).2.ipages.map (fun P => P.base)
      = s.ipages.map (fun P => P.base) :=
  forall₂_base_map_eq (fiptf_aux_shape s.ipages)

theorem fiptf_getSlot (s : PState) (e : DescId) :
    getSlot (find_internal_page_to_free s).2 e = getSlot s e := by
  rcases find?_forall₂_base (fiptf_aux_shape s.ipages) e.pageBase with
    ⟨h1, h2⟩ | ⟨P, P', h1, h2, hb, hn, hs⟩
  · show ((find_internal_page_to_free_aux s.ipages).2.find? _).bind _
      = (s.ipages.find? _).bind _
    rw [h1, h2]
  · show ((find_internal_page_to_free_aux s.ipages).2.find? _).bind _
      = (s.ipages.find? _).bind _
    rw [h1, h2]
    simp [hs]

theorem fiptf_slack (s : PState) : slackGe s (find_internal_page_to_free s).2 := by
  intro b P P' hP hP' k hk
  rcases find?_forall₂_base (fiptf_aux_shape s.ipages) b with
    ⟨h1, h2⟩ | ⟨Q, Q', h1, h2, hb, hn, hs⟩
  · rw [show getPage s b = s.ipages.find? (fun P => P.base == b) from rfl, h1] at hP
    cases hP
  · rw [show getPage s b = s.ipages.find? (fun P => P.base == b) from rfl, h1] at hP
    rw [show getPage (find_internal_page_to_free s).2 b
        = (find_internal_page_to_free_aux s.ipages).2.find? (fun P => P.base == b) from rfl,
        h2] at hP'
    injection hP with hQ
    injection hP' with hQ'
    subst hQ
    subst hQ'
    have hocc : occ Q' = occ Q := by
      unfold occ
      rw [hs]
    rw [hocc, hn]
    exact hk

theorem slotD_eq {s : PState} {d : DescId} {hd : PageHead}
    (h : getSlot s d = some hd) : slotD s d = hd := by
  unfold slotD
  rw [h]
  rfl

theorem mem_setPage {s : PState} {b : Nat} {f : InternalPage → InternalPage}
    {P' : InternalPage} (h : P' ∈ (setPage s b f).ipages) :
    ∃ P ∈ s.ipages, P' = if P.base = b then f P else P := by
  rw [setPage_ipages] at h
  rcases List.mem_map.1 h with ⟨P, hm, he⟩
  exact ⟨P, hm, he.symm⟩

theorem forall_mem_iff_getPage {s : PState}
    (hnd : (s.ipages.map (fun P => P.base)).Nodup) (Q : InternalPage → Prop) :
    (∀ P ∈ s.ipages, Q P) ↔ (∀ b P, getPage s b = some P → Q P) := by
  constructor
  · intro h b P hP
    exact h P (getPage_mem hP)
  · intro h P hm
    exact h P.base P (getPage_eq_of_mem hnd hm)

theorem occ_num_eq {P : InternalPage} (n : Nat) :
    occ { P with page_heads_num := n } = occ P := rfl

theorem occ_set_some_of_none {P : InternalPage} {i : Nat} {hd : PageHead}
    (h : P.slots[i]? = some hd) (hn : hd.addr = none)
    {x : PageHead} (hx : x.addr.isSome) :
    occ { P with slots := P.slots.set i x } = occ P + 1 := by
  have hset := occ_set x h
  rw [hn] at hset
  simp only [Option.isSome_none, Bool.false_eq_true, if_false, hx, if_true] at hset
  omega

theorem occ_set_some_of_some {P : InternalPage} {i : Nat} {hd : PageHead}
    (h : P.slots[i]? = some hd) (hs : hd.addr.isSome)
    {x : PageHead} (hx : x.addr.isSome) :
    occ { P with slots := P.slots.set i x } = occ P := by
  have hset := occ_set x h
  rw [hs, hx] at hset
  omega

theorem occ_set_none_of_some {P : InternalPage} {i : Nat} {hd : PageHead}
    (h : P.slots[i]? = some hd) (hs : hd.addr.isSome)
    {x : PageHead} (hx : x.addr = none) :
    occ { P with slots := P.slots.set i x } + 1 = occ P := by
  have hset := occ_set x h
  rw [hs, hx] at hset
  simp only [Option.isSome_none, Bool.false_eq_true, if_false, if_true] at hset
  omega

theorem nodup_move_used {u f : List DescId} {d : DescId}
    (hnd : (u ++ f).Nodup) (hdf : d ∈ f) :
    ((d :: u) ++ f.erase d).Nodup := by
  have hperm : List.Perm (u ++ f) (d :: (u ++ f.erase d)) :=
    (List.Perm.append_left u (List.perm_cons_erase hdf)).trans List.perm_middle
  exact hnd.perm hperm

theorem nodup_move_free {u f : List DescId} {d : DescId}
    (hnd : (u ++ f).Nodup) (hdu : d ∈ u) :
    (u.erase d ++ d :: f).Nodup := by
  have h1 : List.Perm (u ++ f) (d :: (u.erase d ++ f)) :=
    List.Perm.append_right f (List.perm_cons_erase hdu)
  have h2 : List.Perm (u.erase d ++ d :: f) (d :: (u.erase d ++ f)) := List.perm_middle
  exact (hnd.perm h1).perm h2.symm

theorem mem_entries_move {u f : List DescId} {d e : DescId}
    (h : e ∈ (d :: u) ++ f.erase d) (hdf : d ∈ f) : e ∈ u ++ f := by
  rcases List.mem_append.1 h with h1 | h2
  · rcases List.mem_cons.1 h1 with rfl | h1'
    · exact List.mem_append.2 (Or.inr hdf)
    · exact List.mem_append.2 (Or.inl h1')
  · exact List.mem_append.2 (Or.inr ((List.erase_sublist d f).subset h2))

theorem getSlot_some_parts {s : PState} {d : DescId} {hd : PageHead}
    (h : getSlot s d = some hd) :
    ∃ P, getPage s d.pageBase = some P ∧ P.slots[d.idx]? = some hd
      ∧ d.idx < P.slots.length := by
  unfold getSlot at h
  rcases hgp : getPage s d.pageBase with _ | P
  · rw [hgp] at h
    cases h
  · rw [hgp] at h
    have h' : P.slots[d.idx]? = some hd := h
    rcases List.getElem?_eq_some.1 h' with ⟨hlt, -⟩
    exact ⟨P, rfl, h', hlt⟩

/-! ### Slack transfer machinery -/

theorem slackGe_refl_of_ipages_eq {s s' : PState} (h : s'.ipages = s.ipages) :
    slackGe s s' := by
  intro b P P' hP hP' k hk
  have : getPage s' b = getPage s b := by
    unfold getPage
    rw [h]
  rw [this, hP] at hP'
  injection hP' with he
  subst he
  exact hk

theorem slackGe_trans {s₁ s₂ s₃ : PState}
    (hbase : s₂.ipages.map (fun P => P.base) = s₁.ipages.map (fun P => P.base))
    (h12 : slackGe s₁ s₂) (h23 : slackGe s₂ s₃) : slackGe s₁ s₃ := by
  intro b P P' hP hP' k hk
  have hb1 := base_mem_of_getPage hP
  rcases getPage_of_base_mem (s := s₂) (by rw [hbase]; exact hb1) with ⟨P₂, hP₂⟩
  exact h23 b P₂ P' hP₂ hP' k (h12 b P P₂ hP hP₂ k hk)

theorem numOcc_of_slackGe {s s' : PState}
    (hbase : s'.ipages.map (fun P => P.base) = s.ipages.map (fun P => P.base))
    (hnd' : (s'.ipages.map (fun P => P.base)).Nodup) (h : slackGe s s')
    (hno : ∀ P ∈ s.ipages, occ P ≤ P.page_heads_num) :
    ∀ P' ∈ s'.ipages, occ P' ≤ P'.page_heads_num := by
  intro P' hm'
  have hgp' : getPage s' P'.base = some P' := getPage_eq_of_mem hnd' hm'
  have hmemb : P'.base ∈ s'.ipages.map (fun P => P.base) :=
    List.mem_map.2 ⟨P', hm', rfl⟩
  rcases getPage_of_base_mem (s := s) (by rw [← hbase]; exact hmemb) with ⟨P, hP⟩
  have := h P'.base P P' hP hgp' 0 (by simpa using hno P (getPage_mem hP))
  simpa using this

theorem staticNum_of_slackGe {s s' : PState}
    (hbase : s'.ipages.map (fun P => P.base) = s.ipages.map (fun P => P.base))
    (hnd' : (s'.ipages.map (fun P => P.base)).Nodup) (h : slackGe s s')
    (hsn : ∀ P ∈ s.ipages, P.base = static_base → occ P + 1 ≤ P.page_heads_num) :
    ∀ P' ∈ s'.ipages, P'.base = static_base → occ P' + 1 ≤ P'.page_heads_num := by
  intro P' hm' hbs
  have hgp' : getPage s' P'.base = some P' := getPage_eq_of_mem hnd' hm'
  have hmemb : P'.base ∈ s'.ipages.map (fun P => P.base) :=
    List.mem_map.2 ⟨P', hm', rfl⟩
  rcases getPage_of_base_mem (s := s) (by rw [← hbase]; exact hmemb) with ⟨P, hP⟩
  have hPb : P.base = static_base := (getPage_base hP).trans hbs
  exact h P'.base P P' hP hgp' 1 (hsn P (getPage_mem hP) hPb)

theorem getPage_setSlot (s : PState) (d : DescId) (x : PageHead) (b : Nat) :
    getPage (setSlot s d x) b
      = (getPage s b).map (fun P => if P.base = d.pageBase
          then { P with slots := P.slots.set d.idx x } else P) :=
  getPage_setPage (fun P => { P with slots := P.slots.set d.idx x }) (fun _ => rfl) s _ b

theorem dynBase_setPage (f : InternalPage → InternalPage)
    (hf : ∀ P, (f P).base = P.base) {s : PState} (b : Nat)
    (h : ∀ P ∈ s.ipages, P.base ≠ static_base → page_size ≤ P.base) :
    ∀ P' ∈ (setPage s b f).ipages, P'.base ≠ static_base → page_size ≤ P'.base := by
  intro P' hP' hne
  rcases mem_setPage hP' with ⟨P, hm, rfl⟩
  by_cases hb : P.base = b
  · rw [if_pos hb, hf]
    exact h P hm (by rwa [if_pos hb, hf] at hne)
  · rw [if_neg hb]
    exact h P hm (by rwa [if_neg hb] at hne)

theorem dynBase_of_bases_eq {s s' : PState}
    (hbase : s'.ipages.map (fun P => P.base) = s.ipages.map (fun P => P.base))
    (h : ∀ P ∈ s.ipages, P.base ≠ static_base → page_size ≤ P.base) :
    ∀ P' ∈ s'.ipages, P'.base ≠ static_base → page_size ≤ P'.base := by
  intro P' hm' hne
  have hmem : P'.base ∈ s.ipages.map (fun P => P.base) := by
    rw [← hbase]
    exact List.mem_map.2 ⟨P', hm', rfl⟩
  rcases List.mem_map.1 hmem with ⟨P, hm, hb⟩
  rw [← hb]
  exact h P hm (by rw [hb]; exact hne)

theorem not_mem_lists_of_slot_none {s : PState} {e : DescId} {hd : PageHead}
    (hI : PreInv s) (hslot : getSlot s e = some hd) (hn : hd.addr = none) :
    e ∉ s.used_list ++ s.free_list := by
  intro hmem
  rcases hI.descOk e hmem with ⟨hd', hslot', a, haddr, -⟩
  rw [hslot] at hslot'
  injection hslot' with hh
  rw [← hh, hn] at haddr
  cases haddr

theorem ffph_some_parts {s : PState} {e : DescId} {s1 : PState}
    (h : find_free_page_head s = (some e, s1)) :
    ffph_aux s.ipages = some e
    ∧ s1 = setPage s e.pageBase
        (fun Q => { Q with page_heads_num := Q.page_heads_num + 1 }) := by
  unfold find_free_page_head at h
  rcases hfa : ffph_aux s.ipages with _ | d
  · rw [hfa] at h
    cases h
  · rw [hfa] at h
    simp only [Prod.mk.injEq, Option.some.injEq] at h
    obtain ⟨rfl, hs1⟩ := h
    exact ⟨rfl, hs1.symm⟩

/-- Overwriting an occupied slot with an occupied head leaves every page's
occupancy and head count unchanged. -/
theorem slackGe_setSlot_some_of_some {s : PState} {d : DescId} {hd : PageHead}
    (hslot : getSlot s d = some hd) (hs : hd.addr.isSome)
    {x : PageHead} (hx : x.addr.isSome) : slackGe s (setSlot s d x) := by
  rcases getSlot_some_parts hslot with ⟨Pd, hgpd, hPslot, hPlt⟩
  intro b P P' hP hP' k hk
  have hP'' : getPage (setSlot s d x) b = some P' := hP'
  rw [getPage_setSlot, hP] at hP''
  simp only [Option.map_some'] at hP''
  injection hP'' with he
  subst he
  by_cases hb : P.base = d.pageBase
  · have hbb : b = d.pageBase := (getPage_base hP).symm.trans hb
    have hPPd : P = Pd := by
      rw [hbb] at hP
      rw [hP] at hgpd
      exact Option.some.inj hgpd
    subst hPPd
    rw [if_pos hb]
    rw [occ_set_some_of_some hPslot hs hx]
    exact hk
  · rw [if_neg hb]
    exact hk

/-- Bumping a page's head count and then filling one of its unoccupied
slots raises that page's occupancy and head count together, so per-page
slack does not shrink. -/
theorem slackGe_bump_and_fill {s : PState} {e : DescId} {hdE : PageHead}
    (hgse : getSlot s e = some hdE) (hEnone : hdE.addr = none)
    {lo : PageHead} (hlosome : lo.addr.isSome) :
    slackGe s (setSlot
      (setPage s e.pageBase (fun Q => { Q with page_heads_num := Q.page_heads_num + 1 }))
      e lo) := by
  rcases getSlot_some_parts hgse with ⟨Pe, hgpe, hEslot, hElt⟩
  intro b P P' hP hP' k hk
  have hP'' : getPage (setSlot
      (setPage s e.pageBase (fun Q => { Q with page_heads_num := Q.page_heads_num + 1 }))
      e lo) b = some P' := hP'
  rw [getPage_setSlot,
      getPage_setPage (fun Q => { Q with page_heads_num := Q.page_heads_num + 1 })
        (fun _ => rfl), hP] at hP''
  simp only [Option.map_some'] at hP''
  injection hP'' with he2
  subst he2
  by_cases hb : P.base = e.pageBase
  · have hbb : b = e.pageBase := (getPage_base hP).symm.trans hb
    have hPPe : P = Pe := by
      rw [hbb] at hP
      rw [hP] at hgpe
      exact Option.some.inj hgpe
    subst hPPe
    rw [if_pos hb]
    have hcond : ({ P with page_heads_num := P.page_heads_num + 1 } :
        InternalPage).base = e.pageBase := hb
    rw [if_pos hcond]
    show ((P.slots.set e.idx lo).filter (fun h => h.addr.isSome)).length + k
        ≤ P.page_heads_num + 1
    have h2 := filter_length_set P.slots e.idx hdE lo hEslot
    rw [hEnone] at h2
    simp only [Option.isSome_none, Bool.false_eq_true, if_false, hlosome, if_true] at h2
    have hk2 : (P.slots.filter (fun h => h.addr.isSome)).length + k
        ≤ P.page_heads_num := hk
    omega
  · rw [if_neg hb]
    rw [if_neg hb]
    exact hk

/-- Clearing an occupied slot and decrementing the same page's head count
keeps per-page slack: occupancy and head count drop together. -/
theorem slackGe_clear_and_dec {s : PState} {d : DescId} {hd : PageHead}
    (hslot : getSlot s d = some hd) (hs : hd.addr.isSome)
    {x : PageHead} (hx : x.addr = none) :
    slackGe s (setPage (setSlot s d x) d.pageBase
      (fun P => { P with page_heads_num := P.page_heads_num - 1 })) := by
  rcases getSlot_some_parts hslot with ⟨Pd, hgpd, hPslot, hPlt⟩
  intro b P P' hP hP' k hk
  have hP'' : getPage (setPage (setSlot s d x) d.pageBase
      (fun P => { P with page_heads_num := P.page_heads_num - 1 })) b = some P' := hP'
  rw [getPage_setPage (fun P => { P with page_heads_num := P.page_heads_num - 1 })
        (fun _ => rfl),
      getPage_setSlot, hP] at hP''
  simp only [Option.map_some'] at hP''
  injection hP'' with he2
  by_cases hb : P.base = d.pageBase
  · have hbb : b = d.pageBase := (getPage_base hP).symm.trans hb
    have hPPd : P = Pd := by
      rw [hbb] at hP
      rw [hP] at hgpd
      exact Option.some.inj hgpd
    subst hPPd
    rw [if_pos hb] at he2
    rw [if_pos (show ({ P with slots := P.slots.set d.idx x } :
        InternalPage).base = d.pageBase from hb)] at he2
    subst he2
    show ((P.slots.set d.idx x).filter (fun h => h.addr.isSome)).length + k
        ≤ P.page_heads_num - 1
    have h2 := filter_length_set P.slots d.idx hd x hPslot
    rw [hs, hx] at h2
    simp only [Option.isSome_none, Bool.false_eq_true, if_false, if_true] at h2
    have hk2 : (P.slots.filter (fun h => h.addr.isSome)).length + k
        ≤ P.page_heads_num := hk
    omega
  · rw [if_neg hb] at he2
    rw [if_neg hb] at he2
    subst he2
    exact hk

/-- On the pristine static block the slot scan always finds slot zero. -/
theorem ffph_aux_static : ffph_aux [staticInternalPage] = some ⟨static_base, 0⟩ := by
  decide

theorem fphc_some_parts {s : PState} {d : DescId} {C : InternalPage}
    (h : find_page_head_container s d = some C) :
    getPage s d.pageBase = some C ∧ d.idx < C.cap := by
  unfold find_page_head_container at h
  rcases hgp : getPage s d.pageBase with _ | P
  · rw [hgp] at h
    cases h
  · rw [hgp] at h
    dsimp only at h
    by_cases hlt : d.idx < P.cap
    · rw [if_pos hlt] at h
      obtain rfl := Option.some.inj h
      exact ⟨rfl, hlt⟩
    · rw [if_neg hlt] at h
      cases h

theorem static_mem_filter {l : List InternalPage} {cb : Nat} (hne : static_base ≠ cb)
    (hm : static_base ∈ l.map (fun P => P.base)) :
    static_base ∈ (l.filter (fun P => P.base ≠ cb)).map (fun P => P.base) := by
  rcases List.mem_map.1 hm with ⟨P, hPm, hPb⟩
  refine List.mem_map.2 ⟨P, List.mem_filter.2 ⟨hPm, ?_⟩, hPb⟩
  simp only [decide_eq_true_eq]
  rw [hPb]
  exact hne

theorem inv_erase_used {s : PState} (hI : Inv s) (d : DescId) :
    Inv { s with used_list := s.used_list.erase d } := by
  refine { nodup := hI.nodup, dynBase := hI.dynBase, numOcc := hI.numOcc,
           staticNum := hI.staticNum, descOk := ?_, listNodup := ?_,
           nextOk := hI.nextOk, logOk := hI.logOk }
  · intro q hq
    refine hI.descOk q ?_
    rcases List.mem_append.1 hq with h1 | h2
    · exact List.mem_append.2 (Or.inl ((List.erase_sublist d _).subset h1))
    · exact List.mem_append.2 (Or.inr h2)
  · exact List.Nodup.sublist
      ((List.erase_sublist d _).append (List.Sublist.refl _)) hI.listNodup

theorem inv_fiptf {s : PState} (hI : Inv s) :
    Inv (find_internal_page_to_free s).2 := by
  refine { nodup := by rw [fiptf_bases]; exact hI.nodup,
           dynBase := dynBase_of_bases_eq (fiptf_bases s) hI.dynBase,
           numOcc := numOcc_of_slackGe (fiptf_bases s)
             (by rw [fiptf_bases]; exact hI.nodup) (fiptf_slack s) hI.numOcc,
           staticNum := staticNum_of_slackGe (fiptf_bases s)
             (by rw [fiptf_bases]; exact hI.nodup) (fiptf_slack s) hI.staticNum,
           descOk := ?_, listNodup := hI.listNodup,
           nextOk := hI.nextOk, logOk := hI.logOk }
  intro q hq
  rcases hI.descOk q hq with ⟨hd, hslot, a, haddr, hps⟩
  exact ⟨hd, (fiptf_getSlot s q).trans hslot, a, haddr, hps⟩

/-- Unlinking an internal page whose slots are all unoccupied, and logging
unmaps that do not name the static block, preserves the invariant. -/
theorem inv_filter_append {u : PState} (hU : Inv u) (cb : Nat)
    (hoccz : ∀ P ∈ u.ipages, P.base = cb → occ P = 0)
    (L : List (Option Nat × Nat)) (hL : ∀ e ∈ L, e.1 ≠ some static_base) :
    Inv { u with ipages := u.ipages.filter (fun P => P.base ≠ cb),
                 unmaps := u.unmaps ++ L } := by
  have hsub : List.Sublist (u.ipages.filter (fun P => P.base ≠ cb)) u.ipages :=
    List.filter_sublist _
  refine { nodup := List.Nodup.sublist (hsub.map (fun P => P.base)) hU.nodup,
           dynBase := fun P hm => hU.dynBase P (hsub.subset hm),
           numOcc := fun P hm => hU.numOcc P (hsub.subset hm),
           staticNum := fun P hm => hU.staticNum P (hsub.subset hm),
           descOk := ?_, listNodup := hU.listNodup,
           nextOk := hU.nextOk, logOk := ?_ }
  · intro q hq
    rcases hU.descOk q hq with ⟨hd, hslot, a, haddr, hps⟩
    rcases getSlot_some_parts hslot with ⟨Q, hgpQ, hQslot, hQlt⟩
    have hqcb : q.pageBase ≠ cb := by
      intro he
      have hQmem := getPage_mem hgpQ
      have hQbase : Q.base = cb := (getPage_base hgpQ).trans he
      have hz := hoccz Q hQmem hQbase
      have hpos : 1 ≤ occ Q := occ_pos hQslot (by rw [haddr]; rfl)
      omega
    refine ⟨hd, ?_, a, haddr, hps⟩
    show ((u.ipages.filter (fun P => P.base ≠ cb)).find?
        (fun P => P.base == q.pageBase)).bind (fun P => P.slots[q.idx]?) = some hd
    rw [find?_filter_base_ne _ _ _ hqcb]
    exact hslot
  · intro e he
    rcases List.mem_append.1 he with h1 | h2
    · exact hU.logOk e h1
    · exact hL e h2

/-- Clearing the freed descriptor's slot, decrementing its page's counter
and logging a non-static unmap preserves the invariant, provided the
descriptor is linked on neither run list. -/
theorem inv_clear_and_dec {u : PState} (hU : Inv u) {d : DescId} {hd : PageHead}
    (hslot : getSlot u d = some hd) (hsomehd : hd.addr.isSome)
    (hnotin : d ∉ u.used_list ++ u.free_list)
    {x : PageHead} (hx : x.addr = none)
    (L : List (Option Nat × Nat)) (hL : ∀ e ∈ L, e.1 ≠ some static_base) :
    Inv { setPage (setSlot u d x) d.pageBase
            (fun P => { P with page_heads_num := P.page_heads_num - 1 }) with
          unmaps := u.unmaps ++ L } := by
  have hbases : (setPage (setSlot u d x) d.pageBase
        (fun P => { P with page_heads_num := P.page_heads_num - 1 })).ipages.map
          (fun P => P.base)
      = u.ipages.map (fun P => P.base) :=
    (bases_setPage (fun P => { P with page_heads_num := P.page_heads_num - 1 })
        (fun _ => rfl) _ d.pageBase).trans (bases_setSlot u d x)
  have hslack := slackGe_clear_and_dec hslot hsomehd hx
  refine { nodup := by rw [hbases]; exact hU.nodup,
           dynBase := dynBase_of_bases_eq hbases hU.dynBase,
           numOcc := numOcc_of_slackGe hbases (by rw [hbases]; exact hU.nodup)
             hslack hU.numOcc,
           staticNum := staticNum_of_slackGe hbases (by rw [hbases]; exact hU.nodup)
             hslack hU.staticNum,
           descOk := ?_, listNodup := hU.listNodup, nextOk := hU.nextOk, logOk := ?_ }
  · intro q hq
    have hqd : q ≠ d := fun he => hnotin (he ▸ hq)
    rcases hU.descOk q hq with ⟨hd', hslot', a, haddr, hps⟩
    refine ⟨hd', ?_, a, haddr, hps⟩
    have hc1 : getSlot (setPage (setSlot u d x) d.pageBase
        (fun P => { P with page_heads_num := P.page_heads_num - 1 })) q
        = getSlot (setSlot u d x) q :=
      getSlot_setPage (fun P => { P with page_heads_num := P.page_heads_num - 1 })
        (fun _ => ⟨rfl, rfl⟩) _ d.pageBase q
    exact (hc1.trans (getSlot_setSlot_ne hqd x)).trans hslot'
  · intro e he
    rcases List.mem_append.1 he with h1 | h2
    · exact hU.logOk e h1
    · exact hL e h2

theorem mapped_ne_static {a : Nat} (h : page_size ≤ a) :
    (some a : Option Nat) ≠ some static_base := by
  intro hc
  have he := Option.some.inj hc
  subst he
  exact absurd h (by decide)

/-- pfree preserves the invariant, and never removes the static block from
the internal page list. -/
theorem pfree_inv {s : PState} {av : Nat} {s' : PState} (hI : Inv s)
    (h : pfree s av = some s') :
    Inv s'
    ∧ (static_base ∈ s.ipages.map (fun P => P.base) →
        static_base ∈ s'.ipages.map (fun P => P.base)) := by
  unfold pfree at h
  dsimp only at h
  split at h
  · simp only [Option.some.injEq] at h
    subst h
    exact ⟨hI, id⟩
  next d hfind =>
    have hdmem : d ∈ s.used_list := List.mem_of_find?_eq_some hfind
    have hdent : d ∈ s.used_list ++ s.free_list := List.mem_append.2 (Or.inl hdmem)
    rcases hI.descOk d hdent with ⟨hd, hslot, a₀, haddr, hps⟩
    have hsomehd : hd.addr.isSome := by rw [haddr]; rfl
    have hdnotf : d ∉ s.free_list := fun hdf =>
      (List.nodup_append.1 hI.listNodup).2.2 hdmem hdf
    split at h
    · -- retained in the free collection
      simp only [Option.some.injEq] at h
      subst h
      refine ⟨?_, id⟩
      refine { nodup := hI.nodup, dynBase := hI.dynBase, numOcc := hI.numOcc,
               staticNum := hI.staticNum, descOk := ?_,
               listNodup := nodup_move_free hI.listNodup hdmem,
               nextOk := hI.nextOk, logOk := hI.logOk }
      intro q hq
      rcases List.mem_append.1 hq with h1 | h2
      · exact hI.descOk q (List.mem_append.2
          (Or.inl ((List.erase_sublist d _).subset h1)))
      · rcases List.mem_cons.1 h2 with heq | h2'
        · refine ⟨hd, ?_, a₀, haddr, hps⟩
          rw [heq]
          exact hslot
        · exact hI.descOk q (List.mem_append.2 (Or.inr h2'))
    · -- eviction path
      have hU : Inv (find_internal_page_to_free
          { s with used_list := s.used_list.erase d }).2 :=
        inv_fiptf (inv_erase_used hI d)
      have hgst : getSlot (find_internal_page_to_free
          { s with used_list := s.used_list.erase d }).2 d = some hd :=
        (fiptf_getSlot _ d).trans hslot
      have hnotin : d ∉ (find_internal_page_to_free
            { s with used_list := s.used_list.erase d }).2.used_list
          ++ (find_internal_page_to_free
            { s with used_list := s.used_list.erase d }).2.free_list := by
        intro hmem
        rcases List.mem_append.1 hmem with h1 | h2
        · have h1' : d ∈ s.used_list.erase d := h1
          exact ((List.Nodup.mem_erase_iff
            ((List.nodup_append.1 hI.listNodup).1)).1 h1').1 rfl
        · exact hdnotf h2
      have hbst : (find_internal_page_to_free
            { s with used_list := s.used_list.erase d }).2.ipages.map (fun P => P.base)
          = s.ipages.map (fun P => P.base) := fiptf_bases _
      split at h
      · exact absurd h (by simp)
      next C hcont =>
        have hgpC : getPage s d.pageBase = some C := (fphc_some_parts hcont).1
        have hCbase : C.base = d.pageBase := getPage_base hgpC
        split at h
        next ctfBase hctf =>
          split at h
          · exact absurd h (by simp)
          next hdne =>
            simp only [Option.some.injEq] at h
            subst h
            have hsel : (find_internal_page_to_free_aux s.ipages).1 = some ctfBase := hctf
            rcases fiptf_aux_select hsel with ⟨Pc, hPcm, hPcbase, hPcnum⟩
            have hctfstatic : ctfBase ≠ static_base := by
              intro he
              have := hI.staticNum Pc hPcm (hPcbase.trans he)
              omega
            have hoccz : ∀ P ∈ (find_internal_page_to_free
                  { s with used_list := s.used_list.erase d }).2.ipages,
                P.base = ctfBase → occ P = 0 := by
              intro P hm hb
              rcases forall₂_mem_right (fiptf_aux_shape s.ipages) P (by exact hm)
                with ⟨Q, hQm, hPQb, hPQn, hPQs⟩
              have hQbase : Q.base = ctfBase := hPQb.symm.trans hb
              have hQPc : Q = Pc := by
                have h1 := getPage_eq_of_mem hI.nodup hQm
                have h2 := getPage_eq_of_mem hI.nodup hPcm
                rw [hQbase] at h1
                rw [hPcbase] at h2
                rw [h1] at h2
                exact Option.some.inj h2
              have hoccPQ : occ P = occ Q := by
                unfold occ
                rw [hPQs]
              rw [hoccPQ, hQPc]
              have := hI.numOcc Pc hPcm
              omega
            have hdslot2 : (List.filter (fun P => decide (P.base ≠ ctfBase))
                  (find_internal_page_to_free
                    { s with used_list := s.used_list.erase d }).2.ipages).find?
                    (fun P => P.base == d.pageBase)
                = getPage (find_internal_page_to_free
                    { s with used_list := s.used_list.erase d }).2 d.pageBase :=
              find?_filter_base_ne _ _ _ hdne
            refine ⟨inv_filter_append hU ctfBase hoccz _ ?_,
              fun hm => static_mem_filter (Ne.symm hctfstatic) (by rw [hbst]; exact hm)⟩
            intro e he
            rcases List.mem_cons.1 he with rfl | he2
            · intro hc
              exact hctfstatic (Option.some.inj hc)
            · rcases List.mem_cons.1 he2 with rfl | he3
              · have hslotF : getSlot { (find_internal_page_to_free
                      { s with used_list := s.used_list.erase d }).2 with
                    ipages := (find_internal_page_to_free
                      { s with used_list := s.used_list.erase d }).2.ipages.filter
                        (fun P => P.base ≠ ctfBase) } d = some hd := by
                  show ((List.filter (fun P => decide (P.base ≠ ctfBase))
                      (find_internal_page_to_free
                        { s with used_list := s.used_list.erase d }).2.ipages).find?
                        (fun P => P.base == d.pageBase)).bind
                      (fun P => P.slots[d.idx]?) = some hd
                  rw [hdslot2]
                  exact hgst
                have hsdF := slotD_eq hslotF
                show ((slotD _ d).addr, (slotD _ d).page_num * page_size).1
                    ≠ some static_base
                rw [hsdF, haddr]
                exact mapped_ne_static hps
              · cases he3
        next hctf =>
          simp only [Option.some.injEq] at h
          subst h
          rw [hCbase]
          rcases getSlot_some_parts hgst with ⟨Pt, hgpt, hPtslot, hPtlt⟩
          have hslot3 : getSlot (setPage (setSlot (find_internal_page_to_free
                { s with used_list := s.used_list.erase d }).2 d
                ⟨none, (slotD (find_internal_page_to_free
                  { s with used_list := s.used_list.erase d }).2 d).page_num⟩)
              d.pageBase (fun P => { P with page_heads_num := P.page_heads_num - 1 })) d
              = some ⟨none, (slotD (find_internal_page_to_free
                  { s with used_list := s.used_list.erase d }).2 d).page_num⟩ :=
            (getSlot_setPage (fun P => { P with page_heads_num := P.page_heads_num - 1 })
              (fun _ => ⟨rfl, rfl⟩) _ d.pageBase d).trans
              (getSlot_setSlot_self hgpt hPtlt _)
          refine ⟨inv_clear_and_dec hU hgst hsomehd hnotin rfl _ ?_, ?_⟩
          · intro e he
            rcases List.mem_cons.1 he with rfl | he2
            · have hsd3 := slotD_eq hslot3
              show ((slotD _ d).addr, (slotD _ d).page_num * page_size).1
                  ≠ some static_base
              rw [hsd3]
              intro hc
              cases hc
            · cases he2
          · intro hm
            have hb3 : (setPage (setSlot (find_internal_page_to_free
                  { s with used_list := s.used_list.erase d }).2 d
                  ⟨none, (slotD (find_internal_page_to_free
                    { s with used_list := s.used_list.erase d }).2 d).page_num⟩)
                d.pageBase
                (fun P => { P with page_heads_num := P.page_heads_num - 1 })).ipages.map
                  (fun P => P.base)
                = s.ipages.map (fun P => P.base) :=
              (bases_setPage (fun P => { P with page_heads_num := P.page_heads_num - 1 })
                  (fun _ => rfl) _ d.pageBase).trans
                ((bases_setSlot _ d _).trans hbst)
            show static_base ∈ (setPage (setSlot (find_internal_page_to_free
                  { s with used_list := s.used_list.erase d }).2 d
                  ⟨none, (slotD (find_internal_page_to_free
                    { s with used_list := s.used_list.erase d }).2 d).page_num⟩)
                d.pageBase
                (fun P => { P with page_heads_num := P.page_heads_num - 1 })).ipages.map
                  (fun P => P.base)
            rw [hb3]
            exact hm

theorem entry_cases {u f : List DescId} {d e : DescId} (hnd : (u ++ f).Nodup)
    (hdf : d ∈ f) (he : e ∈ (d :: u) ++ f.erase d) :
    e = d ∨ (e ≠ d ∧ e ∈ u ++ f) := by
  rcases List.mem_append.1 he with h1 | h2
  · rcases List.mem_cons.1 h1 with rfl | h1'
    · exact Or.inl rfl
    · refine Or.inr ⟨?_, List.mem_append.2 (Or.inl h1')⟩
      rintro rfl
      exact ((List.nodup_append.1 hnd).2.2 h1' hdf : False)
  · have hfn : f.Nodup := (List.nodup_append.1 hnd).2.1
    have hh := (List.Nodup.mem_erase_iff hfn).1 h2
    exact Or.inr ⟨hh.1, List.mem_append.2 (Or.inr hh.2)⟩

/-- Effect of find_free_pages on the auxiliary invariant: the invariant is
preserved, the returned run address is a mapped address, the internal page
bases are untouched, per-page slack does not shrink, the run lists gain no
new descriptors, and no unmap is issued. -/
theorem find_free_pages_preInv {s : PState} {pnum : Nat} {el : Bool} {a : Nat}
    {ex : Option PageHead} {s' : PState} (hI : PreInv s)
    (h : find_free_pages s pnum el = some (a, ex, s')) :
    PreInv s'
    ∧ page_size ≤ a
    ∧ s'.ipages.map (fun P => P.base) = s.ipages.map (fun P => P.base)
    ∧ slackGe s s'
    ∧ (∀ e ∈ s'.used_list ++ s'.free_list, e ∈ s.used_list ++ s.free_list)
    ∧ s'.unmaps = s.unmaps
    ∧ (∀ e hd, getSlot s e = some hd → ∃ hd', getSlot s' e = some hd') := by
  unfold find_free_pages at h
  dsimp only at h
  split at h
  · -- no fit: __map_pages
    simp only [Option.some.injEq, Prod.mk.injEq] at h
    obtain ⟨rfl, rfl, rfl⟩ := h
    refine ⟨?_, hI.nextOk, rfl, slackGe_refl_of_ipages_eq rfl, fun e he => he, rfl,
      fun e hd he => ⟨hd, he⟩⟩
    exact { nodup := hI.nodup, dynBase := hI.dynBase, numOcc := hI.numOcc,
            descOk := hI.descOk, listNodup := hI.listNodup,
            nextOk := le_trans hI.nextOk (Nat.le_add_right _ _), logOk := hI.logOk }
  next d hfind =>
    have hdmem : d ∈ s.free_list := List.mem_of_find?_eq_some hfind
    have hdent : d ∈ s.used_list ++ s.free_list := List.mem_append.2 (Or.inr hdmem)
    rcases hI.descOk d hdent with ⟨hd, hslot, a₀, haddr, hps⟩
    have hsd : slotD s d = hd := slotD_eq hslot
    rcases getSlot_some_parts hslot with ⟨Pd, hgpd, hPslot, hPlt⟩
    have haval : (slotD s d).addr.getD 0 = a₀ := by rw [hsd, haddr]; rfl
    have hdnotu : d ∉ s.used_list := by
      intro hdu
      exact (List.nodup_append.1 hI.listNodup).2.2 hdu hdmem
    split at h
    · -- exact fit
      simp only [Option.some.injEq, Prod.mk.injEq] at h
      obtain ⟨rfl, rfl, rfl⟩ := h
      refine ⟨?_, by rw [haval]; exact hps, rfl, slackGe_refl_of_ipages_eq rfl,
        fun e he => mem_entries_move he hdmem, rfl, fun e hd' he => ⟨hd', he⟩⟩
      refine { nodup := hI.nodup, dynBase := hI.dynBase, numOcc := hI.numOcc,
               descOk := ?_, listNodup := nodup_move_used hI.listNodup hdmem,
               nextOk := hI.nextOk, logOk := hI.logOk }
      intro e he
      exact hI.descOk e (mem_entries_move he hdmem)
    next hneq =>
      split at h
      · -- oversized, caller-supplied extra head
        simp only [Option.some.injEq, Prod.mk.injEq] at h
        obtain ⟨rfl, rfl, rfl⟩ := h
        have hsomehd : hd.addr.isSome := by rw [haddr]; rfl
        have hxs : (PageHead.mk (slotD s d).addr pnum).addr.isSome := by
          rw [hsd, haddr]; rfl
        have hbases := bases_setSlot s d ⟨(slotD s d).addr, pnum⟩
        have hslack : slackGe s (setSlot s d ⟨(slotD s d).addr, pnum⟩) :=
          slackGe_setSlot_some_of_some hslot hsomehd hxs
        refine ⟨?_, by rw [haval]; exact hps, hbases, ?_,
          fun e he => mem_entries_move he hdmem, rfl, ?_⟩
        · refine { nodup := by rw [hbases]; exact hI.nodup,
                   dynBase := dynBase_of_bases_eq hbases hI.dynBase,
                   numOcc := numOcc_of_slackGe hbases (by rw [hbases]; exact hI.nodup)
                     hslack hI.numOcc,
                   descOk := ?_, listNodup := nodup_move_used hI.listNodup hdmem,
                   nextOk := hI.nextOk, logOk := hI.logOk }
          intro q hq
          rcases entry_cases hI.listNodup hdmem hq with heq | ⟨hne, hmem⟩
          · refine ⟨⟨(slotD s d).addr, pnum⟩, ?_, a₀, by rw [hsd, haddr], hps⟩
            rw [heq]
            exact getSlot_setSlot_self hgpd hPlt _
          · rcases hI.descOk q hmem with ⟨hd', hslot', a', haddr', hps'⟩
            refine ⟨hd', ?_, a', haddr', hps'⟩
            have hgq := getSlot_setSlot_ne hne (⟨(slotD s d).addr, pnum⟩ : PageHead) (s := s)
            exact hgq.trans hslot'
        · exact hslack
        · intro e' hd' he'
          by_cases hed : e' = d
          · subst hed
            exact ⟨_, getSlot_setSlot_self hgpd hPlt _⟩
          · exact ⟨hd', (getSlot_setSlot_ne hed _).trans he'⟩
      · -- oversized, extra head taken from an internal page
        split at h
        · exact absurd h (by simp)
        next e s1 hffph =>
          simp only [Option.some.injEq, Prod.mk.injEq] at h
          obtain ⟨rfl, rfl, rfl⟩ := h
          obtain ⟨hfa, hs1⟩ := ffph_some_parts hffph
          rcases ffph_aux_spec hfa with ⟨Pe, hPem, hPebase, hdE, hEslot, hEnone⟩
          have hgpe : getPage s e.pageBase = some Pe := by
            rw [← hPebase]
            exact getPage_eq_of_mem hI.nodup hPem
          have hgse : getSlot s e = some hdE := by
            unfold getSlot
            rw [hgpe]
            exact hEslot
          have hde : d ≠ e := by
            rintro rfl
            rw [hslot] at hgse
            injection hgse with hx
            rw [← hx, haddr] at hEnone
            cases hEnone
          have henotl : e ∉ s.used_list ++ s.free_list :=
            not_mem_lists_of_slot_none hI hgse hEnone
          subst hs1
          have hsomehd : hd.addr.isSome := by rw [haddr]; rfl
          have hnwsome : (PageHead.mk (slotD s d).addr pnum).addr.isSome := by
            rw [hsd, haddr]; rfl
          have hlosome : (PageHead.mk
              (some ((slotD s d).addr.getD 0 + page_size * pnum))
              ((slotD s d).page_num - pnum)).addr.isSome := rfl
          -- the two-stage state: bump e's page, fill slot e with the leftover
          have hbases2 : (setSlot
                (setPage s e.pageBase
                  (fun Q => { Q with page_heads_num := Q.page_heads_num + 1 }))
                e ⟨some ((slotD s d).addr.getD 0 + page_size * pnum),
                   (slotD s d).page_num - pnum⟩).ipages.map (fun P => P.base)
              = s.ipages.map (fun P => P.base) :=
            (bases_setSlot _ e _).trans
              (bases_setPage (fun Q => { Q with page_heads_num := Q.page_heads_num + 1 })
                (fun _ => rfl) s e.pageBase)
          have hslack2 : slackGe s (setSlot
                (setPage s e.pageBase
                  (fun Q => { Q with page_heads_num := Q.page_heads_num + 1 }))
                e ⟨some ((slotD s d).addr.getD 0 + page_size * pnum),
                   (slotD s d).page_num - pnum⟩) :=
            slackGe_bump_and_fill hgse hEnone hlosome
          have hgs2d : getSlot (setSlot
                (setPage s e.pageBase
                  (fun Q => { Q with page_heads_num := Q.page_heads_num + 1 }))
                e ⟨some ((slotD s d).addr.getD 0 + page_size * pnum),
                   (slotD s d).page_num - pnum⟩) d = some hd := by
            rw [getSlot_setSlot_ne hde _ ]
            exact (getSlot_setPage
              (fun Q => { Q with page_heads_num := Q.page_heads_num + 1 })
              (fun _ => ⟨rfl, rfl⟩) s e.pageBase d).trans hslot
          rcases getSlot_some_parts hgs2d with ⟨Pd2, hgpd2, hPslot2, hPlt2⟩
          have hslack3 : slackGe s (setSlot (setSlot
                (setPage s e.pageBase
                  (fun Q => { Q with page_heads_num := Q.page_heads_num + 1 }))
                e ⟨some ((slotD s d).addr.getD 0 + page_size * pnum),
                   (slotD s d).page_num - pnum⟩) d ⟨(slotD s d).addr, pnum⟩) :=
            slackGe_trans hbases2 hslack2
              (slackGe_setSlot_some_of_some hgs2d hsomehd hnwsome)
          have hbases3 : (setSlot (setSlot
                (setPage s e.pageBase
                  (fun Q => { Q with page_heads_num := Q.page_heads_num + 1 }))
                e ⟨some ((slotD s d).addr.getD 0 + page_size * pnum),
                   (slotD s d).page_num - pnum⟩) d
                ⟨(slotD s d).addr, pnum⟩).ipages.map (fun P => P.base)
              = s.ipages.map (fun P => P.base) :=
            (bases_setSlot _ d _).trans hbases2
          have hgslot3 : ∀ e' : DescId, e' ≠ d → e' ≠ e →
              getSlot (setSlot (setSlot
                (setPage s e.pageBase
                  (fun Q => { Q with page_heads_num := Q.page_heads_num + 1 }))
                e ⟨some ((slotD s d).addr.getD 0 + page_size * pnum),
                   (slotD s d).page_num - pnum⟩) d
                ⟨(slotD s d).addr, pnum⟩) e' = getSlot s e' := by
            intro e' hnd2 hne2
            rw [getSlot_setSlot_ne hnd2, getSlot_setSlot_ne hne2,
                getSlot_setPage (fun Q => { Q with page_heads_num := Q.page_heads_num + 1 })
                  (fun _ => ⟨rfl, rfl⟩)]
          refine ⟨?_, by rw [haval]; exact hps, hbases3, hslack3,
            fun e' he' => mem_entries_move he' hdmem, rfl, ?_⟩
          refine { nodup := by rw [hbases3]; exact hI.nodup,
                   dynBase := ?_,
                   numOcc := numOcc_of_slackGe hbases3
                     (by rw [hbases3]; exact hI.nodup) hslack3 hI.numOcc,
                   descOk := ?_, listNodup := nodup_move_used hI.listNodup hdmem,
                   nextOk := hI.nextOk, logOk := hI.logOk }
          · exact dynBase_of_bases_eq hbases3 hI.dynBase
          · intro q hq
            rcases entry_cases hI.listNodup hdmem hq with heq | ⟨hne, hmem⟩
            · refine ⟨⟨(slotD s d).addr, pnum⟩, ?_, a₀, by rw [hsd, haddr], hps⟩
              rw [heq]
              exact getSlot_setSlot_self hgpd2 hPlt2 _
            · rcases hI.descOk q hmem with ⟨hd', hslot', a', haddr', hps'⟩
              have hnee : q ≠ e := fun hEq => henotl (hEq ▸ hmem)
              exact ⟨hd', (hgslot3 q hne hnee).trans hslot', a', haddr', hps'⟩
          · intro e' hd' he'
            by_cases hed : e' = d
            · subst hed
              exact ⟨_, getSlot_setSlot_self hgpd2 hPlt2 _⟩
            · by_cases hee : e' = e
              · subst hee
                rcases getSlot_some_parts hgse with ⟨Pe', hgpe', hEslot', hElt'⟩
                have hgpe1 : getPage (setPage s e'.pageBase
                    (fun Q => { Q with page_heads_num := Q.page_heads_num + 1 }))
                    e'.pageBase = some { Pe' with page_heads_num := Pe'.page_heads_num + 1 } := by
                  rw [getPage_setPage (fun Q => { Q with page_heads_num := Q.page_heads_num + 1 })
                    (fun _ => rfl), hgpe']
                  simp [getPage_base hgpe']
                have hfin : getSlot (setSlot (setSlot (setPage s e'.pageBase
                    (fun Q => { Q with page_heads_num := Q.page_heads_num + 1 })) e'
                    ⟨some ((slotD s d).addr.getD 0 + page_size * pnum),
                     (slotD s d).page_num - pnum⟩)
                    d ⟨(slotD s d).addr, pnum⟩) e'
                    = some ⟨some ((slotD s d).addr.getD 0 + page_size * pnum),
                        (slotD s d).page_num - pnum⟩ := by
                  rw [getSlot_setSlot_ne hed]
                  exact getSlot_setSlot_self hgpe1 (by exact hElt') _
                exact ⟨_, hfin⟩
              · exact ⟨hd', (hgslot3 e' hed hee).trans he'⟩

theorem slackGe_setPage_num_ge (f : InternalPage → InternalPage)
    (hf : ∀ P, (f P).base = P.base ∧ (f P).slots = P.slots
      ∧ P.page_heads_num ≤ (f P).page_heads_num)
    (s : PState) (b : Nat) : slackGe s (setPage s b f) := by
  intro b' P P' hP hP' k hk
  have hP'' : getPage (setPage s b f) b' = some P' := hP'
  rw [getPage_setPage f (fun P => (hf P).1), hP] at hP''
  simp only [Option.map_some'] at hP''
  injection hP'' with he
  subst he
  by_cases hb : P.base = b
  · rw [if_pos hb]
    have hocc : occ (f P) = occ P := by
      unfold occ
      rw [(hf P).2.1]
    have hn := (hf P).2.2
    omega
  · rw [if_neg hb]
    exact hk

theorem getPage_setPage_ne (f : InternalPage → InternalPage)
    (hf : ∀ P, (f P).base = P.base) (s : PState) (b b' : Nat) (hne : b' ≠ b) :
    getPage (setPage s b f) b' = getPage s b' := by
  rw [getPage_setPage f hf]
  rcases hg : getPage s b' with _ | P
  · rfl
  · have hb := getPage_base hg
    simp [hb, hne]

theorem getPage_setSlot_ne (s : PState) (d : DescId) (x : PageHead) (b : Nat)
    (hne : b ≠ d.pageBase) : getPage (setSlot s d x) b = getPage s b :=
  getPage_setPage_ne (fun P => { P with slots := P.slots.set d.idx x })
    (fun _ => rfl) s d.pageBase b hne

theorem getPage_cons_self {s : PState} {N : InternalPage} (b : Nat) (hb : N.base = b) :
    getPage { s with ipages := N :: s.ipages } b = some N := by
  show (N :: s.ipages).find? (fun P => P.base == b) = some N
  exact List.find?_cons_of_pos _ (by simp [hb])

theorem getPage_cons_ne {s : PState} {N : InternalPage} (b : Nat) (hne : N.base ≠ b) :
    getPage { s with ipages := N :: s.ipages } b = getPage s b := by
  show (N :: s.ipages).find? (fun P => P.base == b)
      = s.ipages.find? (fun P => P.base == b)
  exact List.find?_cons_of_neg _ (by simp [hne])

/-- Final phase of palloc: push the chosen descriptor on the used list and
fill its slot with the caller's run.  The hypotheses record the slack the
earlier counter bumps created on the descriptor's own page. -/
theorem inv_fill_push {s3 : PState} {fh : DescId} {hd3 : PageHead} {a pnum : Nat}
    (h3 : PreInv s3) (hslot : getSlot s3 fh = some hd3)
    (hnot : fh ∉ s3.used_list ++ s3.free_list) (ha : page_size ≤ a)
    (hQnum : ∀ P ∈ s3.ipages, P.base = fh.pageBase → occ P + 1 ≤ P.page_heads_num)
    (hst : ∀ P ∈ s3.ipages, P.base = static_base →
      occ P + (if fh.pageBase = static_base then 2 else 1) ≤ P.page_heads_num) :
    Inv (setSlot { s3 with used_list := fh :: s3.used_list } fh ⟨some a, pnum⟩)
    ∧ (setSlot { s3 with used_list := fh :: s3.used_list } fh
          ⟨some a, pnum⟩).ipages.map (fun P => P.base)
        = s3.ipages.map (fun P => P.base) := by
  rcases getSlot_some_parts hslot with ⟨P3, hgp3, hslot3, hlt3⟩
  have hgp4 : getPage { s3 with used_list := fh :: s3.used_list } fh.pageBase
      = some P3 := hgp3
  have hbases : (setSlot { s3 with used_list := fh :: s3.used_list } fh
        ⟨some a, pnum⟩).ipages.map (fun P => P.base)
      = s3.ipages.map (fun P => P.base) :=
    bases_setSlot _ fh _
  refine ⟨?_, hbases⟩
  have hnd' : ((setSlot { s3 with used_list := fh :: s3.used_list } fh
      ⟨some a, pnum⟩).ipages.map (fun P => P.base)).Nodup := by
    rw [hbases]
    exact h3.nodup
  refine { nodup := hnd', dynBase := dynBase_of_bases_eq hbases h3.dynBase,
           numOcc := ?_, staticNum := ?_, descOk := ?_, listNodup := ?_,
           nextOk := h3.nextOk, logOk := h3.logOk }
  · intro P' hm'
    have hm4 : P' ∈ (setPage { s3 with used_list := fh :: s3.used_list } fh.pageBase
        (fun P => { P with slots := P.slots.set fh.idx ⟨some a, pnum⟩ })).ipages := hm'
    rcases mem_setPage hm4 with ⟨P, hPm, hPe⟩
    have hPm3 : P ∈ s3.ipages := hPm
    by_cases hb : P.base = fh.pageBase
    · rw [hPe, if_pos hb]
      have hPP3 : P = P3 := by
        have h1 := getPage_eq_of_mem h3.nodup hPm3
        rw [hb] at h1
        rw [h1] at hgp3
        exact Option.some.inj hgp3
      subst hPP3
      have hQ := hQnum P hPm3 hb
      have hset := occ_set (⟨some a, pnum⟩ : PageHead) hslot3
      simp only [Option.isSome_some, eq_self_iff_true, if_true] at hset
      have hle : occ { P with slots := P.slots.set fh.idx ⟨some a, pnum⟩ }
          ≤ occ P + 1 := by
        by_cases hh : hd3.addr.isSome
        · rw [if_pos hh] at hset
          omega
        · rw [if_neg hh] at hset
          omega
      show occ { P with slots := P.slots.set fh.idx ⟨some a, pnum⟩ }
          ≤ P.page_heads_num
      omega
    · rw [hPe, if_neg hb]
      exact h3.numOcc P hPm3
  · intro e he
    have he' : e ∈ (fh :: s3.used_list) ++ s3.free_list := he
    rcases List.mem_append.1 he' with h1 | h2
    · rcases List.mem_cons.1 h1 with rfl | h1'
      · refine ⟨⟨some a, pnum⟩, ?_, a, rfl, ha⟩
        exact getSlot_setSlot_self hgp4 hlt3 _
      · have hmem : e ∈ s3.used_list ++ s3.free_list := List.mem_append.2 (Or.inl h1')
        have hne : e ≠ fh := fun hEq => hnot (hEq ▸ hmem)
        rcases h3.descOk e hmem with ⟨hd', hs', a', ha', hp'⟩
        exact ⟨hd', (getSlot_setSlot_ne hne _).trans hs', a', ha', hp'⟩
    · have hmem : e ∈ s3.used_list ++ s3.free_list := List.mem_append.2 (Or.inr h2)
      have hne : e ≠ fh := fun hEq => hnot (hEq ▸ hmem)
      rcases h3.descOk e hmem with ⟨hd', hs', a', ha', hp'⟩
      exact ⟨hd', (getSlot_setSlot_ne hne _).trans hs', a', ha', hp'⟩
  · show (fh :: (s3.used_list ++ s3.free_list)).Nodup
    exact List.nodup_cons.2 ⟨hnot, h3.listNodup⟩
  · intro P' hm' hbs
    have hm4 : P' ∈ (setPage { s3 with used_list := fh :: s3.used_list } fh.pageBase
        (fun P => { P with slots := P.slots.set fh.idx ⟨some a, pnum⟩ })).ipages := hm'
    rcases mem_setPage hm4 with ⟨P, hPm, hPe⟩
    have hPm3 : P ∈ s3.ipages := hPm
    by_cases hb : P.base = fh.pageBase
    · rw [hPe, if_pos hb] at hbs ⊢
      have hbs' : P.base = static_base := hbs
      have hfs : fh.pageBase = static_base := by
        rw [← hb]
        exact hbs'
      have hPP3 : P = P3 := by
        have h1 := getPage_eq_of_mem h3.nodup hPm3
        rw [hb] at h1
        rw [h1] at hgp3
        exact Option.some.inj hgp3
      subst hPP3
      have hQ := hst P hPm3 hbs'
      rw [if_pos hfs] at hQ
      have hset := occ_set (⟨some a, pnum⟩ : PageHead) hslot3
      simp only [Option.isSome_some, eq_self_iff_true, if_true] at hset
      have hle : occ { P with slots := P.slots.set fh.idx ⟨some a, pnum⟩ }
          ≤ occ P + 1 := by
        by_cases hh : hd3.addr.isSome
        · rw [if_pos hh] at hset
          omega
        · rw [if_neg hh] at hset
          omega
      show occ { P with slots := P.slots.set fh.idx ⟨some a, pnum⟩ } + 1
          ≤ P.page_heads_num
      omega
    · rw [hPe, if_neg hb] at hbs ⊢
      have hfs : fh.pageBase ≠ static_base := by
        intro hEq
        exact hb (hbs.trans hEq.symm)
      have hQ := hst P hPm3 hbs
      rw [if_neg hfs] at hQ
      exact hQ

set_option maxRecDepth 16384 in
/-- palloc preserves the invariant, never removes a page from the internal
page list (by base address), and the very first successful call links the
static block. -/
theorem palloc_inv {s0 : PState} {pnum : Nat} {r : Option Nat} {s' : PState}
    (hI : Inv s0) (h : palloc s0 pnum = some (r, s')) :
    Inv s'
    ∧ (static_base ∈ s0.ipages.map (fun P => P.base) →
        static_base ∈ s'.ipages.map (fun P => P.base))
    ∧ (s0.ipages = [] → pnum ≠ 0 →
        static_base ∈ s'.ipages.map (fun P => P.base)) := by
  unfold palloc at h
  dsimp only at h
  split at h
  next hz =>
    simp only [Option.some.injEq, Prod.mk.injEq] at h
    obtain ⟨rfl, rfl⟩ := h
    exact ⟨hI, fun hm => hm, fun _ hnz => absurd hz hnz⟩
  next hz =>
    generalize hts : (if s0.ipages.isEmpty then { s0 with ipages := [staticInternalPage] }
        else s0) = t at h
    have hb0 : ∀ b ∈ s0.ipages.map (fun P => P.base),
        b ∈ t.ipages.map (fun P => P.base) := by
      rw [← hts]
      by_cases hemp : s0.ipages.isEmpty
      · rw [if_pos hemp]
        intro b hb
        rw [List.isEmpty_iff.1 hemp] at hb
        cases hb
      · rw [if_neg hemp]
        exact fun b hb => hb
    have hstatic_t : s0.ipages = [] → static_base ∈ t.ipages.map (fun P => P.base) := by
      rw [← hts]
      intro he
      rw [if_pos (by rw [he]; rfl)]
      exact List.Mem.head _
    have hPre : PreInv t := by
      rw [← hts]
      by_cases hemp : s0.ipages.isEmpty
      · rw [if_pos hemp]
        have he : s0.ipages = [] := List.isEmpty_iff.1 hemp
        have hents : ∀ d : DescId, d ∉ s0.used_list ++ s0.free_list := by
          intro d hd
          rcases hI.descOk d hd with ⟨hd', hslot, -⟩
          unfold getSlot getPage at hslot
          rw [he] at hslot
          simp at hslot
        refine { nodup := ?_, dynBase := ?_, numOcc := ?_, descOk := ?_,
                 listNodup := hI.listNodup, nextOk := hI.nextOk, logOk := hI.logOk }
        · show ([staticInternalPage].map (fun P => P.base)).Nodup
          decide
        · intro P hm hne
          have hm' : P ∈ [staticInternalPage] := hm
          obtain rfl := List.mem_singleton.1 hm'
          exact absurd rfl hne
        · intro P hm
          have hm' : P ∈ [staticInternalPage] := hm
          obtain rfl := List.mem_singleton.1 hm'
          decide
        · intro d hd
          exact absurd hd (hents d)
      · rw [if_neg hemp]
        exact hI.toPreInv
    have hstH : ∀ P ∈ t.ipages, P.base = static_base →
        (∀ d, ffph_aux t.ipages = some d → d.pageBase ≠ P.base) →
        occ P + 1 ≤ P.page_heads_num := by
      rw [← hts]
      by_cases hemp : s0.ipages.isEmpty
      · rw [if_pos hemp]
        intro P hm hb hno
        exfalso
        have hm' : P ∈ [staticInternalPage] := hm
        obtain rfl := List.mem_singleton.1 hm'
        exact hno ⟨static_base, 0⟩ ffph_aux_static rfl
      · rw [if_neg hemp]
        intro P hm hb hno
        exact hI.staticNum P hm hb
    suffices hmain : Inv s' ∧ ∀ b ∈ t.ipages.map (fun P => P.base),
        b ∈ s'.ipages.map (fun P => P.base) by
      exact ⟨hmain.1, fun hm => hmain.2 _ (hb0 _ hm),
        fun he _ => hmain.2 _ (hstatic_t he)⟩
    split at h
    next fh s1 hffph =>
      obtain ⟨hffa, hs1⟩ := ffph_some_parts hffph
      subst hs1
      rcases ffph_aux_spec hffa with ⟨Pf, hPfm, hPfb, hdE, hEslot, hEnone⟩
      have hgpf : getPage t fh.pageBase = some Pf := by
        rw [← hPfb]
        exact getPage_eq_of_mem hPre.nodup hPfm
      have hgsf : getSlot t fh = some hdE := by
        unfold getSlot
        rw [hgpf]
        exact hEslot
      split at h
      · exact absurd h (by simp)
      next container hcont =>
        have hgpc : getPage (setPage t fh.pageBase
            (fun Q => { Q with page_heads_num := Q.page_heads_num + 1 })) fh.pageBase
            = some container := (fphc_some_parts hcont).1
        have hcbase : container.base = fh.pageBase := getPage_base hgpc
        rw [hcbase] at h
        set S2 := setPage (setPage t fh.pageBase
            (fun Q => { Q with page_heads_num := Q.page_heads_num + 1 })) fh.pageBase
            (fun P => { P with second_chance := false, page_heads_num := P.page_heads_num + 1 }) with hS2
        have hb2 : S2.ipages.map (fun P => P.base) = t.ipages.map (fun P => P.base) := by
          rw [hS2]
          exact (bases_setPage (fun P => { P with second_chance := false, page_heads_num := P.page_heads_num + 1 }) (fun _ => rfl) _ fh.pageBase).trans
            (bases_setPage (fun Q => { Q with page_heads_num := Q.page_heads_num + 1 })
              (fun _ => rfl) t fh.pageBase)
        have hslack2 : slackGe t S2 := by
          rw [hS2]
          exact slackGe_trans
            (bases_setPage (fun Q => { Q with page_heads_num := Q.page_heads_num + 1 })
              (fun _ => rfl) t fh.pageBase)
            (slackGe_setPage_num_ge
              (fun Q => { Q with page_heads_num := Q.page_heads_num + 1 })
              (fun P => ⟨rfl, rfl, Nat.le_succ _⟩) t fh.pageBase)
            (slackGe_setPage_num_ge
              (fun P => { P with second_chance := false, page_heads_num := P.page_heads_num + 1 })
              (fun P => ⟨rfl, rfl, Nat.le_succ _⟩) _ fh.pageBase)
        have hgs2 : ∀ e, getSlot S2 e = getSlot t e := by
          intro e
          rw [hS2]
          exact (getSlot_setPage (fun P => { P with second_chance := false, page_heads_num := P.page_heads_num + 1 })
              (fun _ => ⟨rfl, rfl⟩) _ fh.pageBase e).trans
            (getSlot_setPage (fun Q => { Q with page_heads_num := Q.page_heads_num + 1 })
              (fun _ => ⟨rfl, rfl⟩) t fh.pageBase e)
        have h2Pre : PreInv S2 := by
          refine { nodup := by rw [hb2]; exact hPre.nodup,
                   dynBase := dynBase_of_bases_eq hb2 hPre.dynBase,
                   numOcc := numOcc_of_slackGe hb2 (by rw [hb2]; exact hPre.nodup)
                     hslack2 hPre.numOcc,
                   descOk := ?_, listNodup := ?_, nextOk := ?_, logOk := ?_ }
          · intro e he
            have he' : e ∈ t.used_list ++ t.free_list := he
            rcases hPre.descOk e he' with ⟨hd', hs', a', ha', hp'⟩
            exact ⟨hd', (hgs2 e).trans hs', a', ha', hp'⟩
          · exact hPre.listNodup
          · exact hPre.nextOk
          · exact hPre.logOk
        have hgp2f : getPage S2 fh.pageBase
            = some { Pf with second_chance := false, page_heads_num := Pf.page_heads_num + 1 + 1 } := by
          rw [hS2, getPage_setPage (fun P => { P with second_chance := false, page_heads_num := P.page_heads_num + 1 }) (fun _ => rfl),
            getPage_setPage (fun Q => { Q with page_heads_num := Q.page_heads_num + 1 })
              (fun _ => rfl), hgpf]
          have hPfb' : Pf.base = fh.pageBase := hPfb
          simp [hPfb']
        split at h
        · exact absurd h (by simp)
        next a ex s3 hffp =>
          obtain ⟨h3Pre, ha, hb3, hslack23, hent3, hun3, hpres3⟩ :=
            find_free_pages_preInv h2Pre hffp
          simp only [Option.some.injEq, Prod.mk.injEq] at h
          obtain ⟨rfl, rfl⟩ := h
          obtain ⟨hd3, hgs3f⟩ := hpres3 fh hdE ((hgs2 fh).trans hgsf)
          have hnot3 : fh ∉ s3.used_list ++ s3.free_list := by
            intro hm
            have hm2 : fh ∈ t.used_list ++ t.free_list := hent3 fh hm
            exact not_mem_lists_of_slot_none hPre hgsf hEnone hm2
          obtain ⟨Q3, hgp3Q⟩ := getPage_of_base_mem (s := s3)
            (by rw [hb3, hb2]; exact base_mem_of_getPage hgpf)
          have hQ3slack : occ Q3 + 2 ≤ Q3.page_heads_num := by
            have h0 : occ Pf ≤ Pf.page_heads_num := hPre.numOcc Pf hPfm
            have hk : occ { Pf with second_chance := false, page_heads_num := Pf.page_heads_num + 1 + 1 } + 2
                ≤ ({ Pf with second_chance := false, page_heads_num := Pf.page_heads_num + 1 + 1 } : InternalPage).page_heads_num := by
              have hocc2 : occ { Pf with second_chance := false, page_heads_num := Pf.page_heads_num + 1 + 1 } = occ Pf := rfl
              show occ { Pf with second_chance := false, page_heads_num := Pf.page_heads_num + 1 + 1 } + 2
                ≤ Pf.page_heads_num + 1 + 1
              omega
            exact hslack23 fh.pageBase _ Q3 hgp2f hgp3Q 2 hk
          have hQnum : ∀ P ∈ s3.ipages, P.base = fh.pageBase →
              occ P + 1 ≤ P.page_heads_num := by
            intro P hm hb
            have hg := getPage_eq_of_mem h3Pre.nodup hm
            rw [hb] at hg
            obtain rfl := Option.some.inj (hg.symm.trans hgp3Q)
            omega
          have hstFin : ∀ P ∈ s3.ipages, P.base = static_base →
              occ P + (if fh.pageBase = static_base then 2 else 1) ≤ P.page_heads_num := by
            intro P hm hbs
            by_cases hfs : fh.pageBase = static_base
            · rw [if_pos hfs]
              have hg := getPage_eq_of_mem h3Pre.nodup hm
              rw [hbs, ← hfs] at hg
              obtain rfl := Option.some.inj (hg.symm.trans hgp3Q)
              exact hQ3slack
            · rw [if_neg hfs]
              have hbmem : P.base ∈ t.ipages.map (fun P => P.base) := by
                rw [← hb2, ← hb3]
                exact List.mem_map.2 ⟨P, hm, rfl⟩
              obtain ⟨Pt, hgPt⟩ := getPage_of_base_mem hbmem
              have hPtb : Pt.base = P.base := getPage_base hgPt
              have h1 : occ Pt + 1 ≤ Pt.page_heads_num := by
                refine hstH Pt (getPage_mem hgPt) (by rw [hPtb]; exact hbs) ?_
                intro d hd
                rw [hffa] at hd
                obtain rfl := Option.some.inj hd
                rw [hPtb, hbs]
                exact hfs
              obtain ⟨P2, hgP2⟩ := getPage_of_base_mem (s := S2)
                (by rw [hb2]; exact hbmem)
              have h2 : occ P2 + 1 ≤ P2.page_heads_num :=
                hslack2 P.base Pt P2 hgPt hgP2 1 h1
              have hgP3 : getPage s3 P.base = some P := getPage_eq_of_mem h3Pre.nodup hm
              exact hslack23 P.base P2 P hgP2 hgP3 1 h2
          obtain ⟨hInv', hbfin⟩ := inv_fill_push h3Pre hgs3f hnot3 ha hQnum hstFin
          refine ⟨hInv', ?_⟩
          intro b hb
          rw [hbfin, hb3, hb2]
          exact hb
    next swild hffph =>
      have hffa : ffph_aux t.ipages = none := by
        rcases hfa : ffph_aux t.ipages with _ | d
        · rfl
        · unfold find_free_page_head at hffph
          rw [hfa] at hffph
          injection hffph
      have hstFull : ∀ P ∈ t.ipages, P.base = static_base →
          occ P + 1 ≤ P.page_heads_num := by
        intro P hm hb
        refine hstH P hm hb ?_
        intro d hd
        rw [hffa] at hd
        exact Option.noConfusion hd
      split at h
      · exact absurd h (by simp)
      next pbase exV s2 hffp1 =>
        obtain ⟨h2Pre, hpb, hb2, hslack2, hent2, hun2, hpres2⟩ :=
          find_free_pages_preInv hPre hffp1
        split at h
        · exact absurd h (by simp)
        next hnany =>
          have hguard : ∀ P ∈ s2.ipages, P.base ≠ pbase := by
            intro P hm he
            exact hnany (List.any_eq_true.2 ⟨P, hm, by simp [he]⟩)
          have hpb2 : pbase ∉ s2.ipages.map (fun P => P.base) := by
            intro hm
            rcases List.mem_map.1 hm with ⟨P, hPm, hPb⟩
            exact hguard P hPm hPb
          have hpbs : pbase ≠ static_base := by
            intro hEq
            rw [hEq] at hpb
            exact absurd hpb (by decide)
          rcases exV with _ | ex
          · -- no leftover head: the new page starts with all slots unoccupied
            dsimp only at h
            set S5 := setPage { s2 with ipages :=
                ({ base := pbase, cap := dynamic_cap, second_chance := false, page_heads_num := 0, slots := List.replicate dynamic_cap ⟨none, 0⟩ } : InternalPage)
                :: s2.ipages } pbase
              (fun P => { P with second_chance := false, page_heads_num := P.page_heads_num + 1 }) with hS5
            have hgp5pb : getPage S5 pbase
                = some { base := pbase, cap := dynamic_cap, second_chance := false, page_heads_num := 1, slots := List.replicate dynamic_cap ⟨none, 0⟩ } := by
              rw [hS5, getPage_setPage (fun P => { P with second_chance := false, page_heads_num := P.page_heads_num + 1 }) (fun _ => rfl),
                getPage_cons_self pbase rfl]
              simp
            have hgs5f : getSlot S5 ⟨pbase, 0⟩ = some (⟨none, 0⟩ : PageHead) := by
              show (getPage S5 (⟨pbase, 0⟩ : DescId).pageBase).bind
                  (fun P => P.slots[(⟨pbase, 0⟩ : DescId).idx]?) = some ⟨none, 0⟩
              rw [show ((⟨pbase, 0⟩ : DescId).pageBase) = pbase from rfl, hgp5pb]
              rfl
            have hgp5ne : ∀ b, b ≠ pbase → getPage S5 b = getPage s2 b := by
              intro b hne
              rw [hS5, getPage_setPage_ne (fun P => { P with second_chance := false, page_heads_num := P.page_heads_num + 1 }) (fun _ => rfl) _ _ _ hne,
                getPage_cons_ne b (fun hEq => hne hEq.symm)]
            have hb5 : S5.ipages.map (fun P => P.base)
                = pbase :: s2.ipages.map (fun P => P.base) := by
              rw [hS5, bases_setPage (fun P => { P with second_chance := false, page_heads_num := P.page_heads_num + 1 }) (fun _ => rfl)]
              rfl
            have hnd5 : (S5.ipages.map (fun P => P.base)).Nodup := by
              rw [hb5]
              exact List.nodup_cons.2 ⟨hpb2, h2Pre.nodup⟩
            have h5Pre : PreInv S5 := by
              refine { nodup := hnd5, dynBase := ?_, numOcc := ?_, descOk := ?_,
                       listNodup := ?_, nextOk := ?_, logOk := ?_ }
              · intro P' hm' hne'
                have hg := getPage_eq_of_mem hnd5 hm'
                by_cases hbp : P'.base = pbase
                · rw [hbp]
                  exact hpb
                · rw [hgp5ne P'.base hbp] at hg
                  exact h2Pre.dynBase P' (getPage_mem hg) hne'
              · intro P' hm'
                have hg := getPage_eq_of_mem hnd5 hm'
                by_cases hbp : P'.base = pbase
                · rw [hbp, hgp5pb] at hg
                  obtain rfl := Option.some.inj hg
                  have h1 : occ ({ base := pbase, cap := dynamic_cap, second_chance := false, page_heads_num := 1, slots := List.replicate dynamic_cap ⟨none, 0⟩ } : InternalPage) = 0 := rfl
                  have h2 : ({ base := pbase, cap := dynamic_cap, second_chance := false, page_heads_num := 1, slots := List.replicate dynamic_cap ⟨none, 0⟩ } : InternalPage).page_heads_num = 1 := rfl
                  omega
                · rw [hgp5ne P'.base hbp] at hg
                  exact h2Pre.numOcc P' (getPage_mem hg)
              · intro e he
                have he' : e ∈ s2.used_list ++ s2.free_list := he
                rcases h2Pre.descOk e he' with ⟨hd', hs', a', ha', hp'⟩
                rcases getSlot_some_parts hs' with ⟨Pq, hgq, -, -⟩
                have hne : e.pageBase ≠ pbase := by
                  intro hEq
                  exact hpb2 (hEq ▸ base_mem_of_getPage hgq)
                refine ⟨hd', ?_, a', ha', hp'⟩
                show (getPage S5 e.pageBase).bind (fun P => P.slots[e.idx]?) = some hd'
                rw [hgp5ne e.pageBase hne]
                exact hs'
              · exact h2Pre.listNodup
              · exact h2Pre.nextOk
              · exact h2Pre.logOk
            split at h
            · exact absurd h (by simp)
            next a ex2 s6 hffpF =>
              obtain ⟨h6Pre, ha6, hb6, hslack56, hent6, hun6, hpres6⟩ :=
                find_free_pages_preInv h5Pre hffpF
              simp only [Option.some.injEq, Prod.mk.injEq] at h
              obtain ⟨rfl, rfl⟩ := h
              obtain ⟨hd6, hgs6f⟩ := hpres6 ⟨pbase, 0⟩ _ hgs5f
              have hnot6 : (⟨pbase, 0⟩ : DescId) ∉ s6.used_list ++ s6.free_list := by
                intro hm
                have hm2 : (⟨pbase, 0⟩ : DescId) ∈ s2.used_list ++ s2.free_list :=
                  hent6 _ hm
                rcases h2Pre.descOk _ hm2 with ⟨hq, hsq, -⟩
                rcases getSlot_some_parts hsq with ⟨Pq, hgq, -, -⟩
                exact hpb2 (base_mem_of_getPage hgq)
              obtain ⟨Q6, hgp6Q⟩ := getPage_of_base_mem (s := s6)
                (by rw [hb6, hb5]; exact List.mem_cons_self _ _)
              have hQ5le : occ ({ base := pbase, cap := dynamic_cap, second_chance := false, page_heads_num := 1, slots := List.replicate dynamic_cap ⟨none, 0⟩ } : InternalPage) + 1 ≤ ({ base := pbase, cap := dynamic_cap, second_chance := false, page_heads_num := 1, slots := List.replicate dynamic_cap ⟨none, 0⟩ } : InternalPage).page_heads_num := by
                have h1 : occ ({ base := pbase, cap := dynamic_cap, second_chance := false, page_heads_num := 1, slots := List.replicate dynamic_cap ⟨none, 0⟩ } : InternalPage) = 0 := rfl
                have h2 : ({ base := pbase, cap := dynamic_cap, second_chance := false, page_heads_num := 1, slots := List.replicate dynamic_cap ⟨none, 0⟩ } : InternalPage).page_heads_num = 1 := rfl
                omega
              have hQ6slack : occ Q6 + 1 ≤ Q6.page_heads_num :=
                hslack56 pbase _ Q6 hgp5pb hgp6Q 1 hQ5le
              have hQnum : ∀ P ∈ s6.ipages, P.base = pbase →
                  occ P + 1 ≤ P.page_heads_num := by
                intro P hm hb
                have hg := getPage_eq_of_mem h6Pre.nodup hm
                rw [hb] at hg
                obtain rfl := Option.some.inj (hg.symm.trans hgp6Q)
                omega
              have hstFin : ∀ P ∈ s6.ipages, P.base = static_base →
                  occ P + (if pbase = static_base then 2 else 1) ≤ P.page_heads_num := by
                intro P hm hbs
                rw [if_neg hpbs]
                have hbmem2 : P.base ∈ s2.ipages.map (fun P => P.base) := by
                  have h1 : P.base ∈ s6.ipages.map (fun P => P.base) :=
                    List.mem_map.2 ⟨P, hm, rfl⟩
                  rw [hb6, hb5] at h1
                  rcases List.mem_cons.1 h1 with hEq | h2
                  · exact absurd (hEq.symm.trans hbs) hpbs
                  · exact h2
                have hbmem0 : P.base ∈ t.ipages.map (fun P => P.base) := by
                  rw [← hb2]
                  exact hbmem2
                obtain ⟨Pt, hgPt⟩ := getPage_of_base_mem hbmem0
                have hPtb : Pt.base = P.base := getPage_base hgPt
                have h1 : occ Pt + 1 ≤ Pt.page_heads_num :=
                  hstFull Pt (getPage_mem hgPt) (hPtb.trans hbs)
                obtain ⟨P2, hgP2⟩ := getPage_of_base_mem (s := s2)
                  (by rw [hb2]; exact hbmem0)
                have h2 : occ P2 + 1 ≤ P2.page_heads_num :=
                  hslack2 P.base Pt P2 hgPt hgP2 1 h1
                have hbn : P.base ≠ pbase := by
                  rw [hbs]
                  exact Ne.symm hpbs
                have hg5 : getPage S5 P.base = some P2 := by
                  rw [hgp5ne P.base hbn]
                  exact hgP2
                have hgP6 : getPage s6 P.base = some P := getPage_eq_of_mem h6Pre.nodup hm
                exact hslack56 P.base P2 P hg5 hgP6 1 h2
              obtain ⟨hInv', hbfin⟩ := inv_fill_push h6Pre hgs6f hnot6 ha6 hQnum hstFin
              refine ⟨hInv', ?_⟩
              intro b hbm
              rw [hbfin, hb6, hb5]
              exact List.mem_cons_of_mem _ (by rw [hb2]; exact hbm)
          · -- the leftover head is copied into slot 0 of the new page
            dsimp only at h
            set S5 := setPage (setPage (setSlot { s2 with ipages :=
                ({ base := pbase, cap := dynamic_cap, second_chance := false, page_heads_num := 0, slots := List.replicate dynamic_cap ⟨none, 0⟩ } : InternalPage)
                :: s2.ipages } ⟨pbase, 0⟩ ex) pbase
              (fun P => { P with page_heads_num := P.page_heads_num + 1 })) pbase
              (fun P => { P with second_chance := false, page_heads_num := P.page_heads_num + 1 }) with hS5
            have hgp5pb : getPage S5 pbase
                = some { base := pbase, cap := dynamic_cap, second_chance := false, page_heads_num := 2, slots := (List.replicate dynamic_cap ⟨none, 0⟩).set 0 ex } := by
              rw [hS5, getPage_setPage (fun P => { P with second_chance := false, page_heads_num := P.page_heads_num + 1 }) (fun _ => rfl),
                getPage_setPage (fun P => { P with page_heads_num := P.page_heads_num + 1 })
                  (fun _ => rfl),
                getPage_setSlot, getPage_cons_self pbase rfl]
              simp
            have hslot1 : ((List.replicate dynamic_cap (⟨none, 0⟩ : PageHead)).set 0 ex)[1]?
                = some (⟨none, 0⟩ : PageHead) := by
              rw [List.getElem?_set_ne (by decide)]
              rfl
            have hgs5f : getSlot S5 ⟨pbase, 1⟩ = some (⟨none, 0⟩ : PageHead) := by
              show (getPage S5 (⟨pbase, 1⟩ : DescId).pageBase).bind
                  (fun P => P.slots[(⟨pbase, 1⟩ : DescId).idx]?) = some ⟨none, 0⟩
              rw [show ((⟨pbase, 1⟩ : DescId).pageBase) = pbase from rfl, hgp5pb]
              exact hslot1
            have hgp5ne : ∀ b, b ≠ pbase → getPage S5 b = getPage s2 b := by
              intro b hne
              rw [hS5, getPage_setPage_ne (fun P => { P with second_chance := false, page_heads_num := P.page_heads_num + 1 }) (fun _ => rfl) _ _ _ hne,
                getPage_setPage_ne (fun P => { P with page_heads_num := P.page_heads_num + 1 })
                  (fun _ => rfl) _ _ _ hne,
                getPage_setSlot_ne _ _ _ _ hne,
                getPage_cons_ne b (fun hEq => hne hEq.symm)]
            have hb5 : S5.ipages.map (fun P => P.base)
                = pbase :: s2.ipages.map (fun P => P.base) := by
              rw [hS5, bases_setPage (fun P => { P with second_chance := false, page_heads_num := P.page_heads_num + 1 }) (fun _ => rfl),
                bases_setPage (fun P => { P with page_heads_num := P.page_heads_num + 1 })
                  (fun _ => rfl),
                bases_setSlot]
              rfl
            have hnd5 : (S5.ipages.map (fun P => P.base)).Nodup := by
              rw [hb5]
              exact List.nodup_cons.2 ⟨hpb2, h2Pre.nodup⟩
            have hoccQ5 : occ ({ base := pbase, cap := dynamic_cap, second_chance := false, page_heads_num := 2, slots := (List.replicate dynamic_cap ⟨none, 0⟩).set 0 ex } : InternalPage)
                ≤ 1 := by
              have h00 : (List.replicate dynamic_cap (⟨none, 0⟩ : PageHead))[0]?
                  = some (⟨none, 0⟩ : PageHead) := rfl
              have hset := occ_set (P := ({ base := pbase, cap := dynamic_cap, second_chance := false, page_heads_num := 2, slots := List.replicate dynamic_cap ⟨none, 0⟩ } : InternalPage)) ex h00
              have hset2 : occ ({ base := pbase, cap := dynamic_cap, second_chance := false, page_heads_num := 2, slots := (List.replicate dynamic_cap ⟨none, 0⟩).set 0 ex } : InternalPage) + (if (⟨none, 0⟩ : PageHead).addr.isSome then 1 else 0)
                  = occ ({ base := pbase, cap := dynamic_cap, second_chance := false, page_heads_num := 2, slots := List.replicate dynamic_cap ⟨none, 0⟩ } : InternalPage) + (if ex.addr.isSome then 1 else 0) := hset
              rw [if_neg (by decide)] at hset2
              have hPocc : occ ({ base := pbase, cap := dynamic_cap, second_chance := false, page_heads_num := 2, slots := List.replicate dynamic_cap ⟨none, 0⟩ } : InternalPage) = 0 := rfl
              by_cases hx : ex.addr.isSome
              · rw [if_pos hx] at hset2
                omega
              · rw [if_neg hx] at hset2
                omega
            have h5Pre : PreInv S5 := by
              refine { nodup := hnd5, dynBase := ?_, numOcc := ?_, descOk := ?_,
                       listNodup := ?_, nextOk := ?_, logOk := ?_ }
              · intro P' hm' hne'
                have hg := getPage_eq_of_mem hnd5 hm'
                by_cases hbp : P'.base = pbase
                · rw [hbp]
                  exact hpb
                · rw [hgp5ne P'.base hbp] at hg
                  exact h2Pre.dynBase P' (getPage_mem hg) hne'
              · intro P' hm'
                have hg := getPage_eq_of_mem hnd5 hm'
                by_cases hbp : P'.base = pbase
                · rw [hbp, hgp5pb] at hg
                  obtain rfl := Option.some.inj hg
                  show occ _ ≤ 2
                  omega
                · rw [hgp5ne P'.base hbp] at hg
                  exact h2Pre.numOcc P' (getPage_mem hg)
              · intro e he
                have he' : e ∈ s2.used_list ++ s2.free_list := he
                rcases h2Pre.descOk e he' with ⟨hd', hs', a', ha', hp'⟩
                rcases getSlot_some_parts hs' with ⟨Pq, hgq, -, -⟩
                have hne : e.pageBase ≠ pbase := by
                  intro hEq
                  exact hpb2 (hEq ▸ base_mem_of_getPage hgq)
                refine ⟨hd', ?_, a', ha', hp'⟩
                show (getPage S5 e.pageBase).bind (fun P => P.slots[e.idx]?) = some hd'
                rw [hgp5ne e.pageBase hne]
                exact hs'
              · exact h2Pre.listNodup
              · exact h2Pre.nextOk
              · exact h2Pre.logOk
            split at h
            · exact absurd h (by simp)
            next a ex2 s6 hffpF =>
              obtain ⟨h6Pre, ha6, hb6, hslack56, hent6, hun6, hpres6⟩ :=
                find_free_pages_preInv h5Pre hffpF
              simp only [Option.some.injEq, Prod.mk.injEq] at h
              obtain ⟨rfl, rfl⟩ := h
              obtain ⟨hd6, hgs6f⟩ := hpres6 ⟨pbase, 1⟩ _ hgs5f
              have hnot6 : (⟨pbase, 1⟩ : DescId) ∉ s6.used_list ++ s6.free_list := by
                intro hm
                have hm2 : (⟨pbase, 1⟩ : DescId) ∈ s2.used_list ++ s2.free_list :=
                  hent6 _ hm
                rcases h2Pre.descOk _ hm2 with ⟨hq, hsq, -⟩
                rcases getSlot_some_parts hsq with ⟨Pq, hgq, -, -⟩
                exact hpb2 (base_mem_of_getPage hgq)
              obtain ⟨Q6, hgp6Q⟩ := getPage_of_base_mem (s := s6)
                (by rw [hb6, hb5]; exact List.mem_cons_self _ _)
              have hQ6slack : occ Q6 + 1 ≤ Q6.page_heads_num :=
                hslack56 pbase _ Q6 hgp5pb hgp6Q 1 (by show _ + 1 ≤ 2; omega)
              have hQnum : ∀ P ∈ s6.ipages, P.base = pbase →
                  occ P + 1 ≤ P.page_heads_num := by
                intro P hm hb
                have hg := getPage_eq_of_mem h6Pre.nodup hm
                rw [hb] at hg
                obtain rfl := Option.some.inj (hg.symm.trans hgp6Q)
                omega
              have hstFin : ∀ P ∈ s6.ipages, P.base = static_base →
                  occ P + (if pbase = static_base then 2 else 1) ≤ P.page_heads_num := by
                intro P hm hbs
                rw [if_neg hpbs]
                have hbmem2 : P.base ∈ s2.ipages.map (fun P => P.base) := by
                  have h1 : P.base ∈ s6.ipages.map (fun P => P.base) :=
                    List.mem_map.2 ⟨P, hm, rfl⟩
                  rw [hb6, hb5] at h1
                  rcases List.mem_cons.1 h1 with hEq | h2
                  · exact absurd (hEq.symm.trans hbs) hpbs
                  · exact h2
                have hbmem0 : P.base ∈ t.ipages.map (fun P => P.base) := by
                  rw [← hb2]
                  exact hbmem2
                obtain ⟨Pt, hgPt⟩ := getPage_of_base_mem hbmem0
                have hPtb : Pt.base = P.base := getPage_base hgPt
                have h1 : occ Pt + 1 ≤ Pt.page_heads_num :=
                  hstFull Pt (getPage_mem hgPt) (hPtb.trans hbs)
                obtain ⟨P2, hgP2⟩ := getPage_of_base_mem (s := s2)
                  (by rw [hb2]; exact hbmem0)
                have h2 : occ P2 + 1 ≤ P2.page_heads_num :=
                  hslack2 P.base Pt P2 hgPt hgP2 1 h1
                have hbn : P.base ≠ pbase := by
                  rw [hbs]
                  exact Ne.symm hpbs
                have hg5 : getPage S5 P.base = some P2 := by
                  rw [hgp5ne P.base hbn]
                  exact hgP2
                have hgP6 : getPage s6 P.base = some P := getPage_eq_of_mem h6Pre.nodup hm
                exact hslack56 P.base P2 P hg5 hgP6 1 h2
              obtain ⟨hInv', hbfin⟩ := inv_fill_push h6Pre hgs6f hnot6 ha6 hQnum hstFin
              refine ⟨hInv', ?_⟩
              intro b hbm
              rw [hbfin, hb6, hb5]
              exact List.mem_cons_of_mem _ (by rw [hb2]; exact hbm)

theorem initState_inv : Inv initState :=
  { nodup := List.nodup_nil,
    dynBase := fun P hm => absurd hm (by simp [initState]),
    numOcc := fun P hm => absurd hm (by simp [initState]),
    descOk := fun d hd => absurd hd (by simp [initState]),
    listNodup := by simp [initState],
    nextOk := Nat.le_refl _,
    logOk := fun e he => absurd he (by simp [initState]),
    staticNum := fun P hm => absurd hm (by simp [initState]) }

/-- Every event preserves the invariant and the residency of the static
block in the internal page list. -/
theorem step_inv {s : PState} {op : Op} {s' : PState} (hI : Inv s)
    (h : stepOp s op = some s') :
    Inv s'
    ∧ (static_base ∈ s.ipages.map (fun P => P.base) →
        static_base ∈ s'.ipages.map (fun P => P.base)) := by
  cases op with
  | palloc n =>
    simp only [stepOp, Option.map_eq_some'] at h
    rcases h with ⟨⟨r1, s2⟩, hp, hs⟩
    cases hs
    exact ⟨(palloc_inv hI hp).1, (palloc_inv hI hp).2.1⟩
  | pfree a =>
    have h' : pfree s a = some s' := h
    exact pfree_inv hI h'
  | poke a v =>
    simp only [stepOp, Option.some.injEq] at h
    subst h
    exact ⟨{ nodup := hI.nodup, dynBase := hI.dynBase, numOcc := hI.numOcc,
             descOk := hI.descOk, listNodup := hI.listNodup, nextOk := hI.nextOk,
             logOk := hI.logOk, staticNum := hI.staticNum }, fun hm => hm⟩

/-- Every reachable lock-release state satisfies the invariant. -/
theorem reachable_inv {s : PState} (h : Reachable s) : Inv s := by
  induction h with
  | init => exact initState_inv
  | step hR hs ih => exact (step_inv ih hs).1

/-- C6: in every state the allocator can reach through palloc/pfree
sequences, no unmap was ever issued for the statically reserved block
(`static_base`), the second-chance sweep of `find_internal_page_to_free`
never selects the static block for unmapping, any further successful event
keeps the static block in the internal page list once it is there, and the
first palloc from the empty state links it.  (The static page always counts
at least one head more than it has occupied slots — palloc bumps its
counter twice per slot handed out and the eviction path decrements it once —
so the sweep, which demands a zero count, can never pick it.) -/
theorem C6_static_never_unmapped {s : PState} (hR : Reachable s) :
    (∀ e ∈ s.unmaps, e.1 ≠ some static_base)
    ∧ (find_internal_page_to_free s).1 ≠ some static_base
    ∧ (∀ op s', stepOp s op = some s' →
        static_base ∈ s.ipages.map (fun P => P.base) →
        static_base ∈ s'.ipages.map (fun P => P.base))
    ∧ (∀ n r s', palloc s n = some (r, s') → s.ipages = [] → n ≠ 0 →
        static_base ∈ s'.ipages.map (fun P => P.base)) := by
  have hI := reachable_inv hR
  refine ⟨hI.logOk, ?_, fun op s' hs => (step_inv hI hs).2,
    fun n r s' hp he hn => (palloc_inv hI hp).2.2 he hn⟩
  intro hc
  have hsel : (find_internal_page_to_free_aux s.ipages).1 = some static_base := hc
  rcases fiptf_aux_select hsel with ⟨Pc, hPcm, hPcb, hPcn⟩
  have := hI.staticNum Pc hPcm hPcb
  omega

/-- Witness: the state after the first palloc is reachable, holds the
static block, and satisfies every conjunct of C6. -/
theorem C6_static_never_unmapped_witness :
    Reachable c6_state
    ∧ ((∀ e ∈ c6_state.unmaps, e.1 ≠ some static_base)
      ∧ (find_internal_page_to_free c6_state).1 ≠ some static_base
      ∧ (∀ op s', stepOp c6_state op = some s' →
          static_base ∈ c6_state.ipages.map (fun P => P.base) →
          static_base ∈ s'.ipages.map (fun P => P.base))
      ∧ (∀ n r s', palloc c6_state n = some (r, s') → c6_state.ipages = [] → n ≠ 0 →
          static_base ∈ s'.ipages.map (fun P => P.base))) :=
  ⟨@Reachable.step initState (Op.palloc 1) c6_state Reachable.init (by decide),
   C6_static_never_unmapped
     (@Reachable.step initState (Op.palloc 1) c6_state Reachable.init (by decide))⟩

end Callocators
